import Mathlib

/-
Shallow embedding of the text normalization and chunking pipeline of
`src/speech_text.py` (the-batch-reader repository), together with proofs
about its specified properties.

Modelling conventions:
- Python strings are Lean `String`s (sequences of Unicode code points);
  where lone surrogates matter (only in `strip_html`'s numeric character
  references) we work over `List Nat` of code points instead.
- Regular-expression passes are modelled as explicit left-to-right
  scanners, faithful to the specific patterns used by the source.
- Fallible Python code (list indexing that can raise IndexError, `chr`
  that can raise ValueError) is modelled with `Option`.
- Scanners that advance by more than one character per step take an
  explicit fuel argument (always instantiated with the input length by
  the wrappers) so that every definition is structurally recursive and
  kernel-computable.
- Word characters and upper/lower-case conversions are modelled at ASCII
  granularity, which covers every table entry of the source.
-/

namespace SpeechText

/-- Whitespace, as recognized by Python's `str.strip` and the `re`
module's whitespace class for `str` patterns. -/
def isPySpace (c : Char) : Bool :=
  ([' ', '\t', '\n', '\r'].contains c) ||
  ([11, 12, 28, 29, 30, 31, 133, 160, 0x1680, 0x2028, 0x2029,
    0x202f, 0x205f, 0x3000].contains c.toNat) ||
  (decide (0x2000 ≤ c.toNat) && decide (c.toNat ≤ 0x200a))

/-- `str.strip()` on a list of characters. -/
def pyStripL (l : List Char) : List Char :=
  ((l.dropWhile isPySpace).reverse.dropWhile isPySpace).reverse

/-- `str.strip()`. -/
def pyStrip (s : String) : String := ⟨pyStripL s.data⟩

/-- `' '.join(parts)`. -/
def joinSp : List String → String
  | [] => ""
  | [s] => s
  | s :: rest => s ++ " " ++ joinSp rest

/-- Sentence-final punctuation used by `chunk_text`'s splitting pattern. -/
def isSentPunct (c : Char) : Bool := ['.', '!', '?'].contains c

/-- The split of `re.split` on a whitespace run preceded by `.`, `!` or
`?` (the lookbehind pattern of `chunk_text`): cut after such a
punctuation character and consume the following whitespace run.  `acc`
holds the current part reversed; fuel is at least the input length. -/
def splitSentsAux : Nat → List Char → List Char → List String
  | 0, acc, l => [⟨acc.reverse ++ l⟩]
  | _ + 1, acc, [] => [⟨acc.reverse⟩]
  | fuel + 1, acc, c :: rest =>
    if isSentPunct c && rest.head?.any isPySpace then
      ⟨(c :: acc).reverse⟩ :: splitSentsAux fuel [] (rest.dropWhile isPySpace)
    else
      splitSentsAux fuel (c :: acc) rest

/-- `re.split(r'(?<=[.!?])\s+', text)` of `chunk_text`. -/
def splitSentences (s : String) : List String :=
  splitSentsAux s.data.length [] s.data

/-- The sentence-packing loop of `chunk_text`: `cur` is
`current_chunk`, `curLen` is `current_length`. -/
def chunkLoop (maxChars : Int) : List String → List String → Nat → List String
  | [], cur, _ => if cur.isEmpty then [] else [joinSp cur]
  | s :: rest, cur, curLen =>
    let s' := pyStrip s
    if s' = "" then chunkLoop maxChars rest cur curLen
    else if (s'.length : Int) > maxChars then
      (if cur.isEmpty then [] else [joinSp cur]) ++ s' :: chunkLoop maxChars rest [] 0
    else
      let space : Nat := if cur.isEmpty then 0 else 1
      if (curLen : Int) + space + s'.length > maxChars then
        (if cur.isEmpty then [] else [joinSp cur]) ++ chunkLoop maxChars rest [s'] s'.length
      else
        chunkLoop maxChars rest (cur ++ [s']) (curLen + space + s'.length)

/-- `chunk_text(text, max_chars)`. -/
def chunkText (text : String) (maxChars : Int) : List String :=
  chunkLoop maxChars (splitSentences text) [] 0

/-- The non-empty stripped sentences of the input, in order: the
sentences actually packed by `chunk_text`. -/
def cleanedSents (text : String) : List String :=
  ((splitSentences text).map pyStrip).filter (fun s => s != "")

/-! ### Helper lemmas about stripping and joining -/

theorem head?_dropWhile_false {α : Type} {p : α → Bool} {l : List α} {c : α}
    (h : (l.dropWhile p).head? = some c) : p c = false := by
  have := List.head?_dropWhile_not p l
  rw [h] at this
  exact this

theorem getLast?_dropWhile {α : Type} {p : α → Bool} {l : List α}
    (h : l.dropWhile p ≠ []) : (l.dropWhile p).getLast? = l.getLast? := by
  obtain ⟨t, ht⟩ := List.dropWhile_suffix (l := l) p
  conv_rhs => rw [← ht]
  exact (List.getLast?_append_of_ne_nil t h).symm

theorem dropWhile_eq_self_of_head {α : Type} {p : α → Bool} {l : List α}
    (h : ∀ c, l.head? = some c → p c = false) : l.dropWhile p = l := by
  cases l with
  | nil => rfl
  | cons c rest =>
    have := h c rfl
    simp [List.dropWhile_cons, this]

theorem pyStripL_head {l : List Char} {c : Char}
    (h : (pyStripL l).head? = some c) : isPySpace c = false := by
  unfold pyStripL at h
  rw [List.head?_reverse] at h
  have hne : (l.dropWhile isPySpace).reverse.dropWhile isPySpace ≠ [] := by
    intro hnil
    rw [hnil] at h
    simp at h
  rw [getLast?_dropWhile hne, List.getLast?_reverse] at h
  exact head?_dropWhile_false h

theorem pyStripL_last {l : List Char} {c : Char}
    (h : (pyStripL l).getLast? = some c) : isPySpace c = false := by
  unfold pyStripL at h
  rw [List.getLast?_reverse] at h
  exact head?_dropWhile_false h

theorem pyStripL_eq_self {l : List Char}
    (hh : ∀ c, l.head? = some c → isPySpace c = false)
    (hl : ∀ c, l.getLast? = some c → isPySpace c = false) : pyStripL l = l := by
  unfold pyStripL
  rw [dropWhile_eq_self_of_head hh]
  rw [dropWhile_eq_self_of_head (by
    intro c hc
    rw [List.head?_reverse] at hc
    exact hl c hc)]
  exact List.reverse_reverse l

theorem pyStripL_idem (l : List Char) : pyStripL (pyStripL l) = pyStripL l :=
  pyStripL_eq_self (fun _ h => pyStripL_head h) (fun _ h => pyStripL_last h)

theorem pyStrip_idem (s : String) : pyStrip (pyStrip s) = pyStrip s := by
  unfold pyStrip
  exact congrArg String.mk (pyStripL_idem s.data)

theorem string_ne_empty_iff_data {s : String} : s ≠ "" ↔ s.data ≠ [] := by
  obtain ⟨l⟩ := s
  constructor
  · intro h hd
    simp only [String.data] at hd
    rw [hd] at h
    exact h rfl
  · intro h he
    apply h
    simpa using congrArg String.data he

theorem pyStripL_all_space {l : List Char}
    (h : ∀ c ∈ l, isPySpace c = true) : pyStripL l = [] := by
  unfold pyStripL
  have : l.dropWhile isPySpace = [] := List.dropWhile_eq_nil_iff.mpr h
  rw [this]
  rfl

/-! joinSp lemmas -/

theorem joinSp_cons₂ (a b : String) (t : List String) :
    joinSp (a :: b :: t) = a ++ " " ++ joinSp (b :: t) := rfl

theorem joinSp_singleton (s : String) : joinSp [s] = s := rfl

theorem joinSp_append_singleton : ∀ (cur : List String) (s : String), cur ≠ [] →
    joinSp (cur ++ [s]) = joinSp cur ++ " " ++ s
  | [], _, h => absurd rfl h
  | [x], s, _ => rfl
  | x :: y :: t', s, _ => by
    have ih := joinSp_append_singleton (y :: t') s (by simp)
    calc joinSp ((x :: y :: t') ++ [s])
        = x ++ " " ++ joinSp ((y :: t') ++ [s]) := rfl
      _ = x ++ " " ++ (joinSp (y :: t') ++ " " ++ s) := by rw [ih]
      _ = (x ++ " " ++ joinSp (y :: t')) ++ " " ++ s := by
            simp [String.append_assoc]
      _ = joinSp (x :: y :: t') ++ " " ++ s := rfl

theorem joinSp_length (cur : List String) (s : String) (h : cur ≠ []) :
    (joinSp (cur ++ [s])).length = (joinSp cur).length + 1 + s.length := by
  rw [joinSp_append_singleton cur s h]
  simp only [String.length_append]
  have hsp : (" " : String).length = 1 := rfl
  omega

theorem joinSp_ne_empty (g : List String) (hg : g ≠ [])
    (h1 : ∀ s ∈ g, s ≠ "") : joinSp g ≠ "" := by
  cases g with
  | nil => exact absurd rfl hg
  | cons s t =>
    have hs := h1 s (by simp)
    cases t with
    | nil => exact hs
    | cons b t' =>
      rw [joinSp_cons₂, string_ne_empty_iff_data, String.data_append,
        String.data_append]
      intro hd
      rcases List.append_eq_nil.mp hd with ⟨h2, _⟩
      rcases List.append_eq_nil.mp h2 with ⟨h3, _⟩
      exact string_ne_empty_iff_data.mp hs h3

theorem joinSp_data_head (g : List String) (hg : g ≠ [])
    (h1 : ∀ s ∈ g, s ≠ "" ∧ pyStrip s = s) :
    ∀ c, (joinSp g).data.head? = some c → isPySpace c = false := by
  induction g with
  | nil => exact absurd rfl hg
  | cons s t ih =>
    intro c hc
    obtain ⟨hs, hstrip⟩ := h1 s (by simp)
    have hsd : s.data ≠ [] := string_ne_empty_iff_data.mp hs
    have hdata : pyStripL s.data = s.data := by
      have := congrArg String.data hstrip
      simpa [pyStrip] using this
    cases t with
    | nil =>
      apply pyStripL_head (l := s.data)
      rw [hdata]
      exact hc
    | cons b t' =>
      rw [joinSp_cons₂] at hc
      rw [String.data_append, String.data_append, List.append_assoc,
        List.head?_append_of_ne_nil s.data hsd] at hc
      apply pyStripL_head (l := s.data)
      rw [hdata]
      exact hc

theorem joinSp_data_last (g : List String) (hg : g ≠ [])
    (h1 : ∀ s ∈ g, s ≠ "" ∧ pyStrip s = s) :
    ∀ c, (joinSp g).data.getLast? = some c → isPySpace c = false := by
  induction g with
  | nil => exact absurd rfl hg
  | cons s t ih =>
    intro c hc
    cases t with
    | nil =>
      obtain ⟨hs, hstrip⟩ := h1 s (by simp)
      have hdata : pyStripL s.data = s.data := by
        have := congrArg String.data hstrip
        simpa [pyStrip] using this
      apply pyStripL_last (l := s.data)
      rw [hdata]
      exact hc
    | cons b t' =>
      have hbt : ∀ x ∈ b :: t', x ≠ "" ∧ pyStrip x = x := by
        intro x hx
        exact h1 x (by simp [hx])
      have hne : (joinSp (b :: t')).data ≠ [] := by
        rw [← string_ne_empty_iff_data]
        exact joinSp_ne_empty _ (by simp) (fun x hx => (hbt x hx).1)
      rw [joinSp_cons₂, String.data_append, String.data_append,
        List.getLast?_append_of_ne_nil (s.data ++ (" " : String).data) hne] at hc
      exact ih (by simp) hbt c hc

theorem joinSp_stripped (g : List String) (hg : g ≠ [])
    (h1 : ∀ s ∈ g, s ≠ "" ∧ pyStrip s = s) :
    joinSp g ≠ "" ∧ pyStrip (joinSp g) = joinSp g := by
  refine ⟨joinSp_ne_empty g hg (fun s hs => (h1 s hs).1), ?_⟩
  unfold pyStrip
  have := pyStripL_eq_self (l := (joinSp g).data)
    (joinSp_data_head g hg h1) (joinSp_data_last g hg h1)
  rw [this]

/-! ### The packing loop invariant -/

theorem chunkLoop_nil (maxChars : Int) (cur : List String) (curLen : Nat) :
    chunkLoop maxChars [] cur curLen =
      if cur.isEmpty then [] else [joinSp cur] := rfl

theorem chunkLoop_cons (maxChars : Int) (s : String) (rest cur : List String)
    (curLen : Nat) :
    chunkLoop maxChars (s :: rest) cur curLen =
      (if pyStrip s = "" then chunkLoop maxChars rest cur curLen
       else if ((pyStrip s).length : Int) > maxChars then
         (if cur.isEmpty then [] else [joinSp cur]) ++
           pyStrip s :: chunkLoop maxChars rest [] 0
       else if (curLen : Int) + (if cur.isEmpty then (0 : Nat) else 1) +
           (pyStrip s).length > maxChars then
         (if cur.isEmpty then [] else [joinSp cur]) ++
           chunkLoop maxChars rest [pyStrip s] (pyStrip s).length
       else chunkLoop maxChars rest (cur ++ [pyStrip s])
         (curLen + (if cur.isEmpty then 0 else 1) + (pyStrip s).length)) := rfl

theorem isEmpty_false_of_ne_nil {α : Type} {l : List α} (h : l ≠ []) :
    l.isEmpty = false := by
  cases l with
  | nil => exact absurd rfl h
  | cons a t => rfl

/-- Invariant of the packing loop of `chunk_text`: the produced chunks
are the space-joins of a partition of the pending chunk followed by the
remaining cleaned sentences into consecutive non-empty groups; each
joined group fits the limit unless it is a single oversized sentence. -/
theorem chunkLoop_spec (maxChars : Int) :
    ∀ (sents cur : List String) (curLen : Nat),
    (cur = [] → curLen = 0) →
    (cur ≠ [] → curLen = (joinSp cur).length ∧
      ((joinSp cur).length : Int) ≤ maxChars) →
    (∀ s ∈ cur, s ≠ "" ∧ pyStrip s = s) →
    ∃ groups : List (List String),
      chunkLoop maxChars sents cur curLen = groups.map joinSp ∧
      groups.join = cur ++ ((sents.map pyStrip).filter (fun s => s != "")) ∧
      (∀ g ∈ groups, g ≠ []) ∧
      (∀ g ∈ groups, ((joinSp g).length : Int) ≤ maxChars ∨
        ∃ s, g = [s] ∧ maxChars < (s.length : Int)) ∧
      (∀ g ∈ groups, ∀ s ∈ g, s ≠ "" ∧ pyStrip s = s) := by
  intro sents
  induction sents with
  | nil =>
    intro cur curLen h0 hinv helem
    by_cases hc : cur = []
    · subst hc
      exact ⟨[], by simp [chunkLoop_nil], by simp, by simp, by simp, by simp⟩
    · refine ⟨[cur], ?_, by simp, by simpa using hc, ?_, ?_⟩
      · rw [chunkLoop_nil, if_neg (by simp [isEmpty_false_of_ne_nil hc])]
        rfl
      · intro g hg
        simp at hg
        subst hg
        exact Or.inl (hinv hc).2
      · intro g hg
        simp at hg
        subst hg
        exact helem
  | cons s rest ih =>
    intro cur curLen h0 hinv helem
    rw [chunkLoop_cons]
    by_cases hs : pyStrip s = ""
    · rw [if_pos hs]
      obtain ⟨groups, e1, e2, e3, e4, e5⟩ := ih cur curLen h0 hinv helem
      refine ⟨groups, e1, ?_, e3, e4, e5⟩
      rw [e2]
      simp [List.filter_cons, hs]
    · rw [if_neg hs]
      have hstrip : pyStrip (pyStrip s) = pyStrip s := pyStrip_idem s
      have hfilter : ((s :: rest).map pyStrip).filter (fun x => x != "") =
          pyStrip s :: ((rest.map pyStrip).filter (fun x => x != "")) := by
        simp [List.filter_cons, hs]
      by_cases hbig : ((pyStrip s).length : Int) > maxChars
      · rw [if_pos hbig]
        obtain ⟨groups, e1, e2, e3, e4, e5⟩ :=
          ih [] 0 (fun _ => rfl) (fun h => absurd rfl h) (by simp)
        refine ⟨(if cur = [] then [] else [cur]) ++ [pyStrip s] :: groups,
          ?_, ?_, ?_, ?_, ?_⟩
        · rw [e1]
          by_cases hc : cur = []
          · simp [hc, joinSp_singleton]
          · rw [if_neg hc, if_neg (by simp [isEmpty_false_of_ne_nil hc])]
            simp [joinSp_singleton]
        · rw [hfilter]
          by_cases hc : cur = []
          · simp [hc] at e2 ⊢
            exact e2
          · rw [if_neg hc]
            simp at e2 ⊢
            exact e2
        · intro g hg
          rcases List.mem_append.mp hg with h | h
          · by_cases hc : cur = [] <;> simp [hc] at h
            subst h
            exact hc
          · rcases List.mem_cons.mp h with h | h
            · subst h; simp
            · exact e3 g h
        · intro g hg
          rcases List.mem_append.mp hg with h | h
          · by_cases hc : cur = [] <;> simp [hc] at h
            subst h
            exact Or.inl (hinv hc).2
          · rcases List.mem_cons.mp h with h | h
            · subst h
              exact Or.inr ⟨pyStrip s, rfl, by exact_mod_cast hbig⟩
            · exact e4 g h
        · intro g hg
          rcases List.mem_append.mp hg with h | h
          · by_cases hc : cur = [] <;> simp [hc] at h
            subst h
            exact helem
          · rcases List.mem_cons.mp h with h | h
            · subst h
              intro x hx
              simp at hx
              subst hx
              exact ⟨hs, hstrip⟩
            · exact e5 g h
      · rw [if_neg hbig]
        push_neg at hbig
        by_cases hover : (curLen : Int) +
            (if cur.isEmpty then (0 : Nat) else 1) + (pyStrip s).length > maxChars
        · rw [if_pos hover]
          obtain ⟨groups, e1, e2, e3, e4, e5⟩ :=
            ih [pyStrip s] (pyStrip s).length (by simp)
              (fun _ => ⟨rfl, by simpa using hbig⟩)
              (by intro x hx; simp at hx; subst hx; exact ⟨hs, hstrip⟩)
          refine ⟨(if cur = [] then [] else [cur]) ++ groups, ?_, ?_, ?_, ?_, ?_⟩
          · rw [e1]
            by_cases hc : cur = []
            · simp [hc, joinSp_singleton]
            · rw [if_neg hc, if_neg (by simp [isEmpty_false_of_ne_nil hc])]
              simp [joinSp_singleton]
          · rw [hfilter]
            by_cases hc : cur = []
            · simp [hc] at e2 ⊢
              exact e2
            · rw [if_neg hc]
              simp at e2 ⊢
              exact e2
          · intro g hg
            rcases List.mem_append.mp hg with h | h
            · by_cases hc : cur = [] <;> simp [hc] at h
              subst h
              exact hc
            · exact e3 g h
          · intro g hg
            rcases List.mem_append.mp hg with h | h
            · by_cases hc : cur = [] <;> simp [hc] at h
              subst h
              exact Or.inl (hinv hc).2
            · exact e4 g h
          · intro g hg
            rcases List.mem_append.mp hg with h | h
            · by_cases hc : cur = [] <;> simp [hc] at h
              subst h
              exact helem
            · exact e5 g h
        · rw [if_neg hover]
          push_neg at hover
          have hcur' : ∀ x ∈ cur ++ [pyStrip s], x ≠ "" ∧ pyStrip x = x := by
            intro x hx
            rcases List.mem_append.mp hx with h | h
            · exact helem x h
            · simp at h
              subst h
              exact ⟨hs, hstrip⟩
          have hlen' : curLen + (if cur.isEmpty then 0 else 1) +
              (pyStrip s).length = (joinSp (cur ++ [pyStrip s])).length := by
            by_cases hc : cur = []
            · subst hc
              simp [h0 rfl, joinSp_singleton]
            · rw [isEmpty_false_of_ne_nil hc]
              rw [joinSp_length cur (pyStrip s) hc, (hinv hc).1]
              simp
          have hbound' : ((joinSp (cur ++ [pyStrip s])).length : Int) ≤ maxChars := by
            rw [← hlen']
            by_cases hc : cur = []
            · subst hc
              simpa [h0 rfl] using hover
            · rw [isEmpty_false_of_ne_nil hc] at hover ⊢
              exact_mod_cast hover
          obtain ⟨groups, e1, e2, e3, e4, e5⟩ :=
            ih (cur ++ [pyStrip s])
              (curLen + (if cur.isEmpty then 0 else 1) + (pyStrip s).length)
              (by intro h; exact absurd h (by simp))
              (fun _ => ⟨hlen', hbound'⟩) hcur'
          refine ⟨groups, e1, ?_, e3, e4, e5⟩
          rw [e2, hfilter]
          simp

/-- Characters of every sentence produced by the splitter come from the
accumulator or the remaining input. -/
theorem splitSentsAux_chars : ∀ (fuel : Nat) (acc l : List Char) (sent : String),
    sent ∈ splitSentsAux fuel acc l → ∀ c ∈ sent.data, c ∈ acc ∨ c ∈ l := by
  intro fuel
  induction fuel with
  | zero =>
    intro acc l sent hs c hc
    simp [splitSentsAux] at hs
    subst hs
    simp at hc
    rcases hc with h | h
    · exact Or.inl h
    · exact Or.inr h
  | succ fuel ih =>
    intro acc l sent hs c hc
    cases l with
    | nil =>
      simp [splitSentsAux] at hs
      subst hs
      simp at hc
      exact Or.inl hc
    | cons x rest =>
      rw [splitSentsAux] at hs
      by_cases hcond : (isSentPunct x && rest.head?.any isPySpace) = true
      · rw [if_pos hcond] at hs
        rcases List.mem_cons.mp hs with h | h
        · subst h
          simp at hc
          rcases hc with h | h
          · exact Or.inl h
          · exact Or.inr (by simp [h])
        · rcases ih [] (rest.dropWhile isPySpace) sent h c hc with h2 | h2
          · simp at h2
          · have hsub : rest.dropWhile isPySpace ⊆ rest :=
              (List.dropWhile_suffix isPySpace).subset
            exact Or.inr (by simp [hsub h2])
      · rw [if_neg hcond] at hs
        rcases ih (x :: acc) rest sent hs c hc with h2 | h2
        · rcases List.mem_cons.mp h2 with h3 | h3
          · exact Or.inr (by simp [h3])
          · exact Or.inl h3
        · exact Or.inr (by simp [h2])

/-! ### Claim theorems about `chunk_text` -/

/-- C2: with a positive `max_chars`, the chunks of `chunk_text` are the
space-joins of a partition of the non-empty stripped sentences of the
input, in original order, into consecutive non-empty groups; each chunk
fits within `max_chars` except a chunk that is a single sentence longer
than `max_chars`, which is emitted on its own. -/
theorem chunkText_bound_and_order (text : String) (maxChars : Int)
    (h : 0 < maxChars) :
    ∃ groups : List (List String),
      chunkText text maxChars = groups.map joinSp ∧
      groups.join = cleanedSents text ∧
      (∀ g ∈ groups, g ≠ []) ∧
      (∀ g ∈ groups, ((joinSp g).length : Int) ≤ maxChars ∨
        ∃ s, g = [s] ∧ maxChars < (s.length : Int)) := by
  obtain ⟨groups, e1, e2, e3, e4, _⟩ :=
    chunkLoop_spec maxChars (splitSentences text) [] 0 (fun _ => rfl)
      (fun hn => absurd rfl hn) (by simp)
  exact ⟨groups, e1, by simpa [cleanedSents] using e2, e3, e4⟩

theorem chunkText_bound_and_order_witness :
    (0 : Int) < 20 ∧
    ∃ groups : List (List String),
      chunkText "Hello world. This is a test! Is it? Yes." 20 =
        groups.map joinSp ∧
      groups.join = cleanedSents "Hello world. This is a test! Is it? Yes." ∧
      (∀ g ∈ groups, g ≠ []) ∧
      (∀ g ∈ groups, ((joinSp g).length : Int) ≤ 20 ∨
        ∃ s, g = [s] ∧ 20 < (s.length : Int)) :=
  ⟨by decide,
   chunkText_bound_and_order "Hello world. This is a test! Is it? Yes." 20
     (by decide)⟩

/-- C9: `chunk_text` performs no validation of `max_chars`: at the
failing input `max_chars = 0` it silently returns each sentence as its
own (oversized) chunk instead of raising an invalid-configuration
error. -/
theorem chunkText_no_validation_at_zero :
    chunkText "Hello." 0 = ["Hello."] ∧
    chunkText "One. Two." 0 = ["One.", "Two."] := by
  constructor <;> rfl

/-- C10: every chunk returned by `chunk_text` is a non-empty string
equal to its own strip (no leading or trailing whitespace), and on an
empty or whitespace-only input `chunk_text` returns the empty list. -/
theorem chunkText_chunks_clean (text : String) (maxChars : Int) :
    (∀ c ∈ chunkText text maxChars, c ≠ "" ∧ pyStrip c = c) ∧
    ((∀ ch ∈ text.data, isPySpace ch = true) → chunkText text maxChars = []) := by
  obtain ⟨groups, e1, e2, e3, _, e5⟩ :=
    chunkLoop_spec maxChars (splitSentences text) [] 0 (fun _ => rfl)
      (fun hn => absurd rfl hn) (by simp)
  have e1' : chunkText text maxChars = groups.map joinSp := e1
  constructor
  · intro c hc
    rw [e1'] at hc
    obtain ⟨g, hg, hgc⟩ := List.mem_map.mp hc
    subst hgc
    exact joinSp_stripped g (e3 g hg) (e5 g hg)
  · intro hsp
    have hsent : ∀ sent ∈ splitSentences text, ∀ c ∈ sent.data, isPySpace c = true := by
      intro sent hsent c hcs
      rcases splitSentsAux_chars text.data.length [] text.data sent hsent c hcs
        with h | h
      · simp at h
      · exact hsp c h
    have hclean : ((splitSentences text).map pyStrip).filter (fun x => x != "") = [] := by
      rw [List.filter_eq_nil]
      intro a ha
      obtain ⟨sent, hs1, hs2⟩ := List.mem_map.mp ha
      subst hs2
      have : pyStripL sent.data = [] := pyStripL_all_space (hsent sent hs1)
      simp [pyStrip, this]
    rw [hclean] at e2
    simp at e2
    have hgnil : groups = [] := by
      cases groups with
      | nil => rfl
      | cons g t => exact absurd (e2 g (by simp)) (e3 g (by simp))
    rw [e1', hgnil]
    rfl

/-! ### Rule 5: the number speller `_number_to_words` -/

def ONES : List String :=
  ["", "one", "two", "three", "four", "five", "six", "seven", "eight", "nine",
   "ten", "eleven", "twelve", "thirteen", "fourteen", "fifteen", "sixteen",
   "seventeen", "eighteen", "nineteen"]

def TENS : List String :=
  ["", "", "twenty", "thirty", "forty", "fifty", "sixty", "seventy",
   "eighty", "ninety"]

def SCALES : List String := ["", "thousand", "million", "billion", "trillion"]

/-- The `n < 20` and `n < 100` branches of `_number_to_words` (the
recursive call in the hundreds branch always lands here).  List indexing
that could raise IndexError is modelled with `List.get?`. -/
def tensWords (n : Nat) : Option String :=
  if n < 20 then ONES.get? n
  else do
    let t ← TENS.get? (n / 10)
    if n % 10 ≠ 0 then do
      let o ← ONES.get? (n % 10)
      pure (t ++ "-" ++ o)
    else
      pure t

/-- The `n < 1000` branches of `_number_to_words` for `n ≥ 1`. -/
def smallWords (n : Nat) : Option String :=
  if n < 100 then tensWords n
  else do
    let h ← ONES.get? (n / 100)
    if n % 100 ≠ 0 then do
      let r ← tensWords (n % 100)
      pure (h ++ " hundred " ++ r)
    else
      pure (h ++ " hundred")

/-- The grouping loop of `_number_to_words` for `n ≥ 1000`: the parts in
most-significant-first order (that is, `reversed(parts)`); `idx` is
`scale_idx`.  `SCALES[idx]` can raise IndexError, hence the `Option`.
The fuel argument (always at least `n` at the call sites) only makes
the recursion structural; the loop runs while `n > 0`. -/
def bigParts : Nat → Nat → Nat → Option (List String)
  | _, 0, _ => some []
  | 0, _ + 1, _ => some []
  | fuel + 1, n + 1, idx => do
    let tail ← bigParts fuel ((n + 1) / 1000) (idx + 1)
    if (n + 1) % 1000 ≠ 0 then do
      let w ← smallWords ((n + 1) % 1000)
      if idx = 0 then
        pure (tail ++ [w])
      else do
        let sc ← SCALES.get? idx
        pure (tail ++ [w ++ " " ++ sc])
    else
      pure tail

/-- `_number_to_words` on a non-negative value. -/
def numberToWordsNat (n : Nat) : Option String :=
  if n = 0 then some "zero"
  else if n < 1000 then smallWords n
  else do
    let parts ← bigParts n n 0
    pure (joinSp parts)

/-- `_number_to_words(n)`. -/
def numberToWords (n : Int) : Option String :=
  if n = 0 then some "zero"
  else if n < 0 then do
    let w ← numberToWordsNat (-n).toNat
    pure ("negative " ++ w)
  else numberToWordsNat n.toNat

/-! Reference spelling, modelled from the words of the claim (C3): a
second, independent definition to compare `_number_to_words` against. -/

/-- Reference direct-lookup words for `n < 20`. -/
def refOnes : Nat → String
  | 1 => "one" | 2 => "two" | 3 => "three" | 4 => "four" | 5 => "five"
  | 6 => "six" | 7 => "seven" | 8 => "eight" | 9 => "nine" | 10 => "ten"
  | 11 => "eleven" | 12 => "twelve" | 13 => "thirteen" | 14 => "fourteen"
  | 15 => "fifteen" | 16 => "sixteen" | 17 => "seventeen" | 18 => "eighteen"
  | 19 => "nineteen"
  | _ => ""

/-- Reference tens words. -/
def refTensWord : Nat → String
  | 2 => "twenty" | 3 => "thirty" | 4 => "forty" | 5 => "fifty"
  | 6 => "sixty" | 7 => "seventy" | 8 => "eighty" | 9 => "ninety"
  | _ => ""

/-- Reference spelling below 100: direct lookup below 20; otherwise the
tens word, a hyphen, and the ones word if nonzero. -/
def refTens (n : Nat) : String :=
  if n < 20 then refOnes n
  else if n % 10 = 0 then refTensWord (n / 10)
  else refTensWord (n / 10) ++ "-" ++ refOnes (n % 10)

/-- Reference spelling below 1000: `"<ones> hundred"` plus the
recursively spelled remainder when nonzero (the remainder is below 100,
so its recursive spelling is `refTens`). -/
def refSmall (n : Nat) : String :=
  if n < 100 then refTens n
  else if n % 100 = 0 then refOnes (n / 100) ++ " hundred"
  else refOnes (n / 100) ++ " hundred " ++ refTens (n % 100)

/-- Reference scale words: thousand, million, billion, trillion. -/
def refScale : Nat → String
  | 1 => "thousand" | 2 => "million" | 3 => "billion" | 4 => "trillion"
  | _ => ""

/-- Reference 3-digit grouping: most-significant first, zero groups
contributing nothing, each nonzero group spelled and suffixed with its
scale word. -/
def refParts : Nat → Nat → Nat → List String
  | _, 0, _ => []
  | 0, _ + 1, _ => []
  | fuel + 1, n + 1, idx =>
    refParts fuel ((n + 1) / 1000) (idx + 1) ++
      (if (n + 1) % 1000 = 0 then []
       else [refSmall ((n + 1) % 1000) ++
         (if idx = 0 then "" else " " ++ refScale idx)])

/-- The claim's reference definition of the number speller. -/
def numberWordsRef (n : Int) : String :=
  if n = 0 then "zero"
  else if n < 0 then "negative " ++ numberWordsRefNat (-n).toNat
  else numberWordsRefNat n.toNat
where
  numberWordsRefNat (m : Nat) : String :=
    if m = 0 then "zero"
    else if m < 1000 then refSmall m
    else joinSp (refParts m m 0)

/-! Agreement lemmas between the source speller and the reference. -/

theorem ones_eq : ∀ n < 20, ONES.get? n = some (refOnes n) := by decide

theorem tensWords_eq : ∀ n < 100, 1 ≤ n → tensWords n = some (refTens n) := by
  decide

theorem smallWords_eq (n : Nat) (h1 : 1 ≤ n) (h2 : n < 1000) :
    smallWords n = some (refSmall n) := by
  by_cases h : n < 100
  · rw [smallWords, if_pos h, refSmall, if_pos h]
    exact tensWords_eq n h h1
  · have hh1 : 1 ≤ n / 100 := Nat.le_div_iff_mul_le (by norm_num) |>.mpr
      (by omega)
    have hh2 : n / 100 < 20 := by omega
    rw [smallWords, if_neg h, ones_eq (n / 100) hh2]
    by_cases hr : n % 100 = 0
    · simp [hr, refSmall, h]
    · have hr1 : 1 ≤ n % 100 := by omega
      have hr2 : n % 100 < 100 := Nat.mod_lt n (by norm_num)
      simp only [Option.bind_eq_bind, Option.some_bind, hr, if_neg, ite_not]
      rw [tensWords_eq (n % 100) hr2 hr1]
      simp [refSmall, h, hr]

theorem scales_eq : ∀ i, 1 ≤ i → i ≤ 4 → SCALES.get? i = some (refScale i) := by
  decide

theorem bigParts_eq : ∀ (fuel n idx : Nat), n ≤ fuel → n < 1000 ^ (5 - idx) →
    bigParts fuel n idx = some (refParts fuel n idx) := by
  intro fuel
  induction fuel with
  | zero =>
    intro n idx hf _
    interval_cases n
    rfl
  | succ fuel ih =>
    intro n idx hf hbound
    cases n with
    | zero => rfl
    | succ m =>
      have hidx : idx ≤ 4 := by
        by_contra hgt
        have h5 : 5 - idx = 0 := by omega
        rw [h5] at hbound
        simp at hbound
      have hrest_le : (m + 1) / 1000 ≤ fuel := by
        have := Nat.div_lt_self (Nat.succ_pos m) (show 1 < 1000 by norm_num)
        omega
      have hrest_lt : (m + 1) / 1000 < 1000 ^ (5 - (idx + 1)) := by
        have hsplit : 1000 ^ (5 - idx) = 1000 ^ (5 - (idx + 1)) * 1000 := by
          have : 5 - idx = (5 - (idx + 1)) + 1 := by omega
          rw [this, pow_succ]
        rw [Nat.div_lt_iff_lt_mul (by norm_num : (0 : Nat) < 1000)]
        rw [hsplit] at hbound
        exact hbound
      have htail := ih ((m + 1) / 1000) (idx + 1) hrest_le hrest_lt
      rw [bigParts, refParts, htail]
      by_cases hchunk : (m + 1) % 1000 = 0
      · simp [hchunk]
      · have hc1 : 1 ≤ (m + 1) % 1000 := by omega
        have hc2 : (m + 1) % 1000 < 1000 := Nat.mod_lt (m + 1) (by norm_num)
        rw [smallWords_eq ((m + 1) % 1000) hc1 hc2]
        by_cases hidx0 : idx = 0
        · simp [hchunk, hidx0]
        · have hi1 : 1 ≤ idx := by omega
          rw [scales_eq idx hi1 hidx]
          simp [hchunk, hidx0, String.append_assoc]

theorem numberToWordsNat_eq (n : Nat) (h : n < 10 ^ 15) :
    numberToWordsNat n = some (numberWordsRef.numberWordsRefNat n) := by
  by_cases h0 : n = 0
  · simp [numberToWordsNat, numberWordsRef.numberWordsRefNat, h0]
  · by_cases hs : n < 1000
    · rw [numberToWordsNat, if_neg h0, if_pos hs,
        numberWordsRef.numberWordsRefNat, if_neg h0, if_pos hs]
      exact smallWords_eq n (by omega) hs
    · have hb : n < 1000 ^ (5 - 0) := by
        simpa using (by norm_num [show (1000 : Nat) ^ 5 = 10 ^ 15 by norm_num] : n < 10 ^ 15 → n < 1000 ^ 5) h
      rw [numberToWordsNat, if_neg h0, if_neg hs,
        numberWordsRef.numberWordsRefNat, if_neg h0, if_neg hs,
        bigParts_eq n n 0 (le_refl n) hb]
      rfl

/-- C3: the source's `_number_to_words` agrees with the claim's
reference definition (zero, negative, direct lookup below twenty,
hyphenated tens, hundreds with recursively spelled remainder, and
3-digit scale grouping) on every integer whose magnitude stays within
the available scale words (below 10^15). -/
theorem numberToWords_matches_reference (n : Int) (h : n.natAbs < 10 ^ 15) :
    numberToWords n = some (numberWordsRef n) := by
  by_cases h0 : n = 0
  · simp [numberToWords, numberWordsRef, h0]
  · by_cases hneg : n < 0
    · have habs : (-n).toNat = n.natAbs := by
        omega
      rw [numberToWords, if_neg h0, if_pos hneg,
        numberWordsRef, if_neg h0, if_pos hneg, habs,
        numberToWordsNat_eq n.natAbs h]
      rfl
    · have habs : n.toNat = n.natAbs := by omega
      rw [numberToWords, if_neg h0, if_neg hneg,
        numberWordsRef, if_neg h0, if_neg hneg, habs]
      exact numberToWordsNat_eq n.natAbs h

theorem numberToWords_matches_reference_witness :
    ((1234567 : Int).natAbs < 10 ^ 15 ∧
      numberToWords 1234567 = some (numberWordsRef 1234567)) ∧
    ((-42 : Int).natAbs < 10 ^ 15 ∧
      numberToWords (-42) = some (numberWordsRef (-42))) :=
  ⟨⟨by decide, numberToWords_matches_reference 1234567 (by decide)⟩,
   ⟨by decide, numberToWords_matches_reference (-42) (by decide)⟩⟩

/-! ### Word-boundary scanners for the regex passes -/

/-- ASCII digit: the `\d` class at ASCII granularity. -/
def isAsciiDigit (c : Char) : Bool :=
  decide (48 ≤ c.toNat) && decide (c.toNat ≤ 57)

def isUpperCh (c : Char) : Bool :=
  decide (65 ≤ c.toNat) && decide (c.toNat ≤ 90)

def isLowerCh (c : Char) : Bool :=
  decide (97 ≤ c.toNat) && decide (c.toNat ≤ 122)

/-- Python `\w` (word character), at ASCII granularity. -/
def isWordChar (c : Char) : Bool :=
  isUpperCh c || isLowerCh c || isAsciiDigit c || decide (c.toNat = 95)

def isWordOpt : Option Char → Bool
  | none => false
  | some c => isWordChar c

/-- ASCII lower-casing of one character (`re.IGNORECASE` folding). -/
def lowerCh (c : Char) : Char :=
  if isUpperCh c then Char.ofNat (c.toNat + 32) else c

/-- Case-insensitive prefix match of a literal pattern. -/
def matchCI : List Char → List Char → Bool
  | [], _ => true
  | _ :: _, [] => false
  | p :: ps, c :: cs => (lowerCh p == lowerCh c) && matchCI ps cs

/-- One pass of `re.sub(rf'\b{pat}\b', rep, text, flags=re.IGNORECASE)`
for a literal pattern `p :: ps` whose first and last characters are word
characters: scan left to right; where the previous original character is
not a word character, try a case-insensitive match of the pattern with no
word character following; on success emit the replacement and continue
after the matched region.  `prev` is the character preceding the current
position in the original text; fuel is at least the input length. -/
def subTokenCI (p : Char) (ps rep : List Char) :
    Nat → Option Char → List Char → List Char
  | 0, _, l => l
  | _ + 1, _, [] => []
  | fuel + 1, prev, c :: rest =>
    if !isWordOpt prev && matchCI (p :: ps) (c :: rest)
        && !isWordOpt ((rest.drop ps.length).head?) then
      rep ++ subTokenCI p ps rep fuel (some ((c :: rest).getD ps.length c))
        (rest.drop ps.length)
    else
      c :: subTokenCI p ps rep fuel (some c) rest

/-! ### Rule 5: `normalize_numbers` -/

/-- The ordinal lookup table of the source, in dict order. -/
def ORDINALS : List (String × String) :=
  [("1st", "first"), ("2nd", "second"), ("3rd", "third"), ("4th", "fourth"),
   ("5th", "fifth"), ("6th", "sixth"), ("7th", "seventh"), ("8th", "eighth"),
   ("9th", "ninth"), ("10th", "tenth"), ("11th", "eleventh"),
   ("12th", "twelfth"), ("13th", "thirteenth"), ("14th", "fourteenth"),
   ("15th", "fifteenth"), ("16th", "sixteenth"), ("17th", "seventeenth"),
   ("18th", "eighteenth"), ("19th", "nineteenth"), ("20th", "twentieth"),
   ("21st", "twenty-first"), ("22nd", "twenty-second"),
   ("23rd", "twenty-third"), ("24th", "twenty-fourth"),
   ("25th", "twenty-fifth"), ("26th", "twenty-sixth"),
   ("27th", "twenty-seventh"), ("28th", "twenty-eighth"),
   ("29th", "twenty-ninth"), ("30th", "thirtieth"), ("31st", "thirty-first")]

/-- The sequence of ordinal substitutions
`re.sub(rf'\b{ordinal}\b', word, text, flags=re.IGNORECASE)`. -/
def ordinalPass (l : List Char) : List Char :=
  ORDINALS.foldl
    (fun acc pr =>
      match pr.1.data with
      | [] => acc
      | p :: ps => subTokenCI p ps pr.2.data acc.length none acc)
    l

/-- `int(num_str)` on a run of ASCII digits. -/
def parseNat (l : List Char) : Nat :=
  l.foldl (fun a c => a * 10 + (c.toNat - 48)) 0

/-- The inner `replace_number` of `normalize_numbers`: the matched digit
token, as a string, is parsed and spelled; a 4-digit token in
`[1900, 2099]` is read as two 2-digit pairs. -/
def replaceNumber (s : String) : Option String :=
  let num := parseNat s.data
  if 1900 ≤ num ∧ num ≤ 2099 ∧ s.data.length = 4 then
    let b := num % 100
    if b = 0 then do
      let w ← numberToWordsNat (num / 100)
      pure (w ++ " hundred")
    else if b < 10 then do
      let w ← numberToWordsNat (num / 100)
      let v ← numberToWordsNat b
      pure (w ++ " oh " ++ v)
    else do
      let w ← numberToWordsNat (num / 100)
      let v ← numberToWordsNat b
      pure (w ++ " " ++ v)
  else numberToWordsNat num

/-- The pass `re.sub(r'\b(\d+)\b', replace_number, text)`: maximal ASCII
digit runs flanked by non-word characters (or the text boundary) are
replaced; other digit runs are left in place. -/
def subNumAux : Nat → Option Char → List Char → Option (List Char)
  | 0, _, l => some l
  | _ + 1, _, [] => some []
  | fuel + 1, prev, c :: rest =>
    if isAsciiDigit c && !isWordOpt prev then
      let run := c :: rest.takeWhile isAsciiDigit
      let after := rest.dropWhile isAsciiDigit
      if !isWordOpt after.head? then do
        let rep ← replaceNumber ⟨run⟩
        let tail ← subNumAux fuel (some (run.getLastD c)) after
        pure (rep.data ++ tail)
      else do
        let tail ← subNumAux fuel (some (run.getLastD c)) after
        pure (run ++ tail)
    else do
      let tail ← subNumAux fuel (some c) rest
      pure (c :: tail)

/-- `normalize_numbers(text)`: the ordinal pass followed by the
standalone-number pass (IndexError from the speller propagates). -/
def normalizeNumbers (s : String) : Option String := do
  let l := ordinalPass s.data
  let r ← subNumAux l.length none l
  pure (⟨r⟩ : String)

/-! ### Rule 6: the year formatting of `normalize_dates` -/

/-- The inner `format_year` of `normalize_dates`: a year in
`[1900, 2099]` is read as two 2-digit pairs, any other year is spelled
as a plain number. -/
def formatYear (s : String) : Option String :=
  let year := parseNat s.data
  if 1900 ≤ year ∧ year ≤ 2099 then
    let b := year % 100
    if b = 0 then do
      let w ← numberToWordsNat (year / 100)
      pure (w ++ " hundred")
    else if b < 10 then do
      let w ← numberToWordsNat (year / 100)
      let v ← numberToWordsNat b
      pure (w ++ " oh " ++ v)
    else do
      let w ← numberToWordsNat (year / 100)
      let v ← numberToWordsNat b
      pure (w ++ " " ++ v)
  else numberToWordsNat year

/-! ### Character-class lemmas -/

theorem toNat_ofNat_valid (m : Nat) (h : m < 55296) :
    (Char.ofNat m).toNat = m := by
  have hv : Nat.isValidChar m := Or.inl h
  simp [Char.ofNat, hv, Char.ofNatAux, Char.toNat, UInt32.toNat,
    BitVec.toNat_ofNatLt]

theorem lowerCh_digit {c : Char} (h : isAsciiDigit c = true) : lowerCh c = c := by
  simp [isAsciiDigit] at h
  have hu : isUpperCh c = false := by
    simp [isUpperCh]
    omega
  simp [lowerCh, hu]

theorem lowerCh_alpha_toNat {q : Char} (h : (isUpperCh q || isLowerCh q) = true) :
    97 ≤ (lowerCh q).toNat ∧ (lowerCh q).toNat ≤ 122 := by
  rcases Bool.or_eq_true_iff.mp h with hu | hl
  · simp [isUpperCh] at hu
    rw [lowerCh, if_pos (by simp [isUpperCh]; omega)]
    rw [toNat_ofNat_valid (q.toNat + 32) (by omega)]
    omega
  · simp [isLowerCh] at hl
    have hu : isUpperCh q = false := by
      simp [isUpperCh]
      omega
    rw [lowerCh, if_neg (by simp [hu])]
    omega

theorem matchCI_false_of_digits : ∀ (pat l : List Char),
    (∃ q ∈ pat, (isUpperCh q || isLowerCh q) = true) →
    (∀ c ∈ l, isAsciiDigit c = true) → matchCI pat l = false := by
  intro pat
  induction pat with
  | nil =>
    intro l h _
    simp at h
  | cons q qs ih =>
    intro l hex hdig
    cases l with
    | nil => rfl
    | cons c cs =>
      rw [matchCI]
      rcases hex with ⟨r, hr, halpha⟩
      rcases List.mem_cons.mp hr with h | h
      · subst h
        have hd := hdig c (by simp)
        have h1 := lowerCh_alpha_toNat halpha
        have h2 : (lowerCh c).toNat = c.toNat := by rw [lowerCh_digit hd]
        simp [isAsciiDigit] at hd
        have hne : (lowerCh r == lowerCh c) = false := by
          rw [beq_eq_false_iff_ne]
          intro he
          rw [he] at h1
          omega
        simp [hne]
      · have := ih cs ⟨r, h, halpha⟩ (fun x hx => hdig x (by simp [hx]))
        simp [this]

theorem subTokenCI_id_of_digits (p : Char) (ps rep : List Char)
    (halpha : ∃ q ∈ p :: ps, (isUpperCh q || isLowerCh q) = true) :
    ∀ (fuel : Nat) (prev : Option Char) (l : List Char),
    (∀ c ∈ l, isAsciiDigit c = true) →
    subTokenCI p ps rep fuel prev l = l := by
  intro fuel
  induction fuel with
  | zero => intro prev l _; rfl
  | succ fuel ih =>
    intro prev l hdig
    cases l with
    | nil => rfl
    | cons c rest =>
      rw [subTokenCI]
      have hm : matchCI (p :: ps) (c :: rest) = false :=
        matchCI_false_of_digits _ _ halpha hdig
      rw [hm]
      simp only [Bool.and_false, Bool.false_and, Bool.false_eq_true, if_false]
      rw [ih (some c) rest (fun x hx => hdig x (by simp [hx]))]

theorem tableSub_id_of_digits :
    ∀ (tbl : List (String × String)) (l : List Char),
    (∀ pr ∈ tbl, ∃ q ∈ pr.1.data, (isUpperCh q || isLowerCh q) = true) →
    (∀ c ∈ l, isAsciiDigit c = true) →
    tbl.foldl
      (fun acc pr =>
        match pr.1.data with
        | [] => acc
        | p :: ps => subTokenCI p ps pr.2.data acc.length none acc) l = l := by
  intro tbl
  induction tbl with
  | nil => intro l _ _; rfl
  | cons pr rest ih =>
    intro l htbl hdig
    rw [List.foldl_cons]
    have hstep :
        (match pr.1.data with
         | [] => l
         | p :: ps => subTokenCI p ps pr.2.data l.length none l) = l := by
      cases hpd : pr.1.data with
      | nil => rfl
      | cons p ps =>
        apply subTokenCI_id_of_digits p ps pr.2.data _ l.length none l hdig
        have := htbl pr (by simp)
        rw [hpd] at this
        exact this
    rw [hstep]
    exact ih l (fun q hq => htbl q (by simp [hq])) hdig

theorem ordinals_have_alpha :
    ∀ pr ∈ ORDINALS, ∃ q ∈ pr.1.data, (isUpperCh q || isLowerCh q) = true := by
  decide

theorem ordinalPass_digits (l : List Char)
    (h : ∀ c ∈ l, isAsciiDigit c = true) : ordinalPass l = l :=
  tableSub_id_of_digits ORDINALS l ordinals_have_alpha h

theorem subNumAux_nil (k : Nat) (prev : Option Char) :
    subNumAux k prev [] = some [] := by
  cases k <;> rfl

theorem subNumAux_single_run (l : List Char) (hne : l ≠ [])
    (hdig : ∀ c ∈ l, isAsciiDigit c = true) (fuel : Nat) (hf : 1 ≤ fuel) :
    subNumAux fuel none l = (replaceNumber ⟨l⟩).map String.data := by
  cases l with
  | nil => exact absurd rfl hne
  | cons c rest =>
    cases fuel with
    | zero => omega
    | succ f =>
      have hdrop : rest.dropWhile isAsciiDigit = [] :=
        List.dropWhile_eq_nil_iff.mpr (fun x hx => hdig x (by simp [hx]))
      have htake : rest.takeWhile isAsciiDigit = rest := by
        have := List.takeWhile_append_dropWhile (p := isAsciiDigit) (l := rest)
        rw [hdrop] at this
        simpa using this
      rw [subNumAux]
      rw [if_pos (by simp [hdig c (by simp), isWordOpt])]
      rw [htake, hdrop]
      rw [if_pos (by simp [isWordOpt])]
      cases hrep : replaceNumber ⟨c :: rest⟩ with
      | none => rfl
      | some r => simp [subNumAux_nil]

theorem normalizeNumbers_digit_token (s : String) (hne : s.data ≠ [])
    (hdig : ∀ c ∈ s.data, isAsciiDigit c = true) :
    normalizeNumbers s = replaceNumber s := by
  have hord : ordinalPass s.data = s.data := ordinalPass_digits s.data hdig
  have hlen : 1 ≤ s.data.length := by
    cases hd : s.data with
    | nil => exact absurd hd hne
    | cons a t => simp
  have hs : (⟨s.data⟩ : String) = s := by cases s; rfl
  rw [normalizeNumbers, hord,
    subNumAux_single_run s.data hne hdig s.data.length hlen, hs]
  cases hrep : replaceNumber s with
  | none => rfl
  | some r => simp

/-! ### C4: the year-pair rendering -/

/-- The 4-digit decimal representation of a year (the bare token the
number pass sees). -/
def yearStr (y : Nat) : String :=
  ⟨[Char.ofNat (48 + y / 1000 % 10), Char.ofNat (48 + y / 100 % 10),
    Char.ofNat (48 + y / 10 % 10), Char.ofNat (48 + y % 10)]⟩

/-- The claim's pair rendering of a year in `[1900, 2099]`: second half
zero gives `"<first-half words> hundred"`, second half 1–9 inserts
`"oh"`, otherwise both halves are spelled. -/
def yearPairRef (y : Nat) : String :=
  if y % 100 = 0 then numberWordsRef.numberWordsRefNat (y / 100) ++ " hundred"
  else if y % 100 < 10 then
    numberWordsRef.numberWordsRefNat (y / 100) ++ " oh " ++
      numberWordsRef.numberWordsRefNat (y % 100)
  else
    numberWordsRef.numberWordsRefNat (y / 100) ++ " " ++
      numberWordsRef.numberWordsRefNat (y % 100)

theorem yearStr_digits (y : Nat) :
    ∀ c ∈ (yearStr y).data, isAsciiDigit c = true := by
  intro c hc
  simp [yearStr] at hc
  rcases hc with h | h | h | h <;> subst h <;>
    (simp [isAsciiDigit]; rw [toNat_ofNat_valid _ (by omega)]; omega)

theorem parseNat_yearStr (y : Nat) (h : y ≤ 9999) :
    parseNat (yearStr y).data = y := by
  have e1 : (Char.ofNat (48 + y / 1000 % 10)).toNat = 48 + y / 1000 % 10 :=
    toNat_ofNat_valid _ (by omega)
  have e2 : (Char.ofNat (48 + y / 100 % 10)).toNat = 48 + y / 100 % 10 :=
    toNat_ofNat_valid _ (by omega)
  have e3 : (Char.ofNat (48 + y / 10 % 10)).toNat = 48 + y / 10 % 10 :=
    toNat_ofNat_valid _ (by omega)
  have e4 : (Char.ofNat (48 + y % 10)).toNat = 48 + y % 10 :=
    toNat_ofNat_valid _ (by omega)
  simp [yearStr, parseNat, e1, e2, e3, e4]
  omega

/-- C4: for every year `y` in `[1900, 2099]`, the number pass renders
the bare 4-digit token as the two 2-digit pairs of the claim — at the
token replacer, at the whole `normalize_numbers` pass applied to the
token, and at the `format_year` helper shared by both recognized date
formats of `normalize_dates`. -/
theorem year_pair_rendering (y : Nat) (h1 : 1900 ≤ y) (h2 : y ≤ 2099) :
    replaceNumber (yearStr y) = some (yearPairRef y) ∧
    formatYear (yearStr y) = some (yearPairRef y) ∧
    normalizeNumbers (yearStr y) = some (yearPairRef y) := by
  have hparse := parseNat_yearStr y (by omega)
  have hw := numberToWordsNat_eq (y / 100) (by omega)
  have hv := numberToWordsNat_eq (y % 100) (by omega)
  have hlen : (yearStr y).data.length = 4 := rfl
  have hrepl : replaceNumber (yearStr y) = some (yearPairRef y) := by
    rw [replaceNumber]
    simp only [hparse, hlen]
    rw [if_pos ⟨h1, h2, trivial⟩]
    by_cases hb0 : y % 100 = 0
    · simp [hb0, hw, yearPairRef]
    · by_cases hb9 : y % 100 < 10
      · simp [hb0, hb9, hw, hv, yearPairRef]
      · simp [hb0, hb9, hw, hv, yearPairRef]
  refine ⟨hrepl, ?_, ?_⟩
  · rw [formatYear]
    simp only [hparse]
    rw [if_pos ⟨h1, by omega⟩]
    by_cases hb0 : y % 100 = 0
    · simp [hb0, hw, yearPairRef]
    · by_cases hb9 : y % 100 < 10
      · simp [hb0, hb9, hw, hv, yearPairRef]
      · simp [hb0, hb9, hw, hv, yearPairRef]
  · rw [normalizeNumbers_digit_token (yearStr y) (by simp [yearStr])
      (yearStr_digits y)]
    exact hrepl

theorem year_pair_rendering_witness :
    (1900 ≤ 2005 ∧ 2005 ≤ 2099 ∧
      replaceNumber (yearStr 2005) = some (yearPairRef 2005) ∧
      formatYear (yearStr 2005) = some (yearPairRef 2005) ∧
      normalizeNumbers (yearStr 2005) = some (yearPairRef 2005)) ∧
    (1900 ≤ 1999 ∧ 1999 ≤ 2099 ∧
      replaceNumber (yearStr 1999) = some (yearPairRef 1999)) ∧
    (1900 ≤ 2000 ∧ 2000 ≤ 2099 ∧
      replaceNumber (yearStr 2000) = some (yearPairRef 2000)) := by
  refine ⟨⟨by decide, by decide, ?_⟩, ⟨by decide, by decide, ?_⟩,
    ⟨by decide, by decide, ?_⟩⟩
  · have h := year_pair_rendering 2005 (by decide) (by decide)
    exact ⟨h.1, h.2.1, h.2.2⟩
  · exact (year_pair_rendering 1999 (by decide) (by decide)).1
  · exact (year_pair_rendering 2000 (by decide) (by decide)).1

/-! ### Rule 1: `strip_html`, over raw code points

`chr()` in the numeric-entity handler can produce lone surrogates, which
Lean's `Char` cannot represent, so this stage is modelled over `List Nat`
of code points. -/

def codesOf (s : String) : List Nat := s.data.map Char.toNat

def isDigitCode (d : Nat) : Bool := decide (48 ≤ d) && decide (d ≤ 57)

def parseNatCodes (l : List Nat) : Nat :=
  l.foldl (fun a d => a * 10 + (d - 48)) 0

/-- `re.sub(r'<[^>]+>', '', text)`: remove each `<`, at least one
non-`>` character, and the closing `>`. -/
def stripTags : Nat → List Nat → List Nat
  | 0, l => l
  | _ + 1, [] => []
  | fuel + 1, c :: rest =>
    if c = 60 && rest.contains 62 && !(rest.head? == some 62) then
      stripTags fuel ((rest.dropWhile (fun d => !(d == 62))).tail)
    else c :: stripTags fuel rest

/-- Exact literal prefix match. -/
def matchLit : List Nat → List Nat → Bool
  | [], _ => true
  | _ :: _, [] => false
  | p :: ps, c :: cs => (p == c) && matchLit ps cs

/-- `text.replace(pat, rep)`: replace every non-overlapping occurrence,
left to right. -/
def replaceLit (p : Nat) (ps rep : List Nat) : Nat → List Nat → List Nat
  | 0, l => l
  | _ + 1, [] => []
  | fuel + 1, c :: rest =>
    if matchLit (p :: ps) (c :: rest) then
      rep ++ replaceLit p ps rep fuel (rest.drop ps.length)
    else c :: replaceLit p ps rep fuel rest

/-- The fixed entity table of `strip_html`, in dict order (decoded
characters given as code points where a string literal would be
awkward). -/
def HTML_ENTITIES : List (List Nat × List Nat) :=
  [(codesOf "&amp;", codesOf "&"),
   (codesOf "&lt;", codesOf "<"),
   (codesOf "&gt;", codesOf ">"),
   (codesOf "&quot;", [34]),
   ([38, 97, 112, 111, 115, 59], [39]),
   (codesOf "&nbsp;", codesOf " "),
   ([38, 35, 51, 57, 59], [39]),
   (codesOf "&mdash;", [8212]),
   (codesOf "&ndash;", [8211]),
   (codesOf "&hellip;", [8230])]

/-- The sequence of `text.replace(entity, char)` calls. -/
def entityPass (l : List Nat) : List Nat :=
  HTML_ENTITIES.foldl
    (fun acc pr =>
      match pr.1 with
      | [] => acc
      | p :: ps => replaceLit p ps pr.2 acc.length acc)
    l

/-- `re.sub(r'&#(\d+);', lambda m: chr(int(m.group(1))), text)`:
`chr` raises `ValueError` for values outside the Unicode range, modelled
as `none`. -/
def numericRefPass : Nat → List Nat → Option (List Nat)
  | 0, l => some l
  | _ + 1, [] => some []
  | fuel + 1, c :: rest =>
    if c = 38 && rest.head? == some 35 &&
        !(rest.tail.takeWhile isDigitCode).isEmpty &&
        (rest.tail.dropWhile isDigitCode).head? == some 59 then
      let code := parseNatCodes (rest.tail.takeWhile isDigitCode)
      let after := (rest.tail.dropWhile isDigitCode).tail
      if code < 1114112 then do
        let t ← numericRefPass fuel after
        pure (code :: t)
      else none
    else do
      let t ← numericRefPass fuel rest
      pure (c :: t)

/-- `strip_html(text)` over code points. -/
def stripHtml (l : List Nat) : Option (List Nat) :=
  let t := stripTags l.length l
  let e := entityPass t
  numericRefPass e.length e

/-- All numeric character references decode within the Unicode range:
the success condition of the numeric-entity pass, checked by the same
scan. -/
def refsOK : Nat → List Nat → Bool
  | 0, _ => true
  | _ + 1, [] => true
  | fuel + 1, c :: rest =>
    if c = 38 && rest.head? == some 35 &&
        !(rest.tail.takeWhile isDigitCode).isEmpty &&
        (rest.tail.dropWhile isDigitCode).head? == some 59 then
      decide (parseNatCodes (rest.tail.takeWhile isDigitCode) < 1114112) &&
        refsOK fuel ((rest.tail.dropWhile isDigitCode).tail)
    else refsOK fuel rest

theorem numericRefPass_isSome :
    ∀ (fuel : Nat) (l : List Nat), refsOK fuel l = true →
    (numericRefPass fuel l).isSome := by
  intro fuel
  induction fuel with
  | zero => intro l _; rfl
  | succ fuel ih =>
    intro l h
    cases l with
    | nil => rfl
    | cons c rest =>
      rw [numericRefPass]
      rw [refsOK] at h
      by_cases hcond : (c = 38 && rest.head? == some 35 &&
          !(rest.tail.takeWhile isDigitCode).isEmpty &&
          (rest.tail.dropWhile isDigitCode).head? == some 59) = true
      · rw [if_pos hcond]
        rw [if_pos hcond] at h
        rcases Bool.and_eq_true_iff.mp h with ⟨hlt, hrec⟩
        rw [if_pos (of_decide_eq_true hlt)]
        have := ih _ hrec
        cases he : numericRefPass fuel ((rest.tail.dropWhile isDigitCode).tail) with
        | none => rw [he] at this; simp at this
        | some t => simp [he]
      · rw [if_neg hcond]
        rw [if_neg hcond] at h
        have := ih rest h
        cases he : numericRefPass fuel rest with
        | none => rw [he] at this; simp at this
        | some t => simp [he]

theorem replaceNumber_isSome (s : String) (h : parseNat s.data < 10 ^ 15) :
    (replaceNumber s).isSome := by
  rw [replaceNumber]
  by_cases hy : 1900 ≤ parseNat s.data ∧ parseNat s.data ≤ 2099 ∧
      s.data.length = 4
  · rw [if_pos hy]
    have hw := numberToWordsNat_eq (parseNat s.data / 100) (by omega)
    have hv := numberToWordsNat_eq (parseNat s.data % 100) (by omega)
    by_cases hb0 : parseNat s.data % 100 = 0
    · simp [hb0, hw]
    · by_cases hb9 : parseNat s.data % 100 < 10
      · simp [hb0, hb9, hw, hv]
      · simp [hb0, hb9, hw, hv]
  · rw [if_neg hy]
    rw [numberToWordsNat_eq (parseNat s.data) h]
    rfl

/-! ### Rule 7: `normalize_symbols`

The currency, percentage and time substitutions call `_number_to_words`
on parsed amounts, so this stage inherits the IndexError of the speller
(modelled as `none`).  The trailing simple replacements are total.
As elsewhere, the regex classes `\d` and `[a-zA-Z]` are modelled at
ASCII granularity. -/

def isCurrencySym (c : Char) : Bool := ['$', '€', '£', '¥'].contains c

/-- `currency_names.get(symbol, 'units')` of `replace_currency`. -/
def currencyName (c : Char) : String :=
  if c = '$' then "dollars"
  else if c = '€' then "euros"
  else if c = '£' then "pounds"
  else if c = '¥' then "yen"
  else "units"

/-- `'cents' if symbol in ('$', '€') else 'pence' if symbol == '£' else ''`. -/
def centsWord (c : Char) : String :=
  if c = '$' ∨ c = '€' then "cents"
  else if c = '£' then "pence"
  else ""

/-- The body of `replace_currency`: `whole` is the digit run before the
optional point (never empty, by the regex), `cents` the two digits after
it when present.  `int` of a digit run is `parseNat`; `_number_to_words`
on these non-negative values is `numberToWordsNat`. -/
def replaceCurrency (symbol : Char) (whole : List Char)
    (cents : Option (List Char)) : Option String :=
  match cents with
  | some cs =>
    if 0 < parseNat cs then do
      let w ← numberToWordsNat (parseNat whole)
      let c ← numberToWordsNat (parseNat cs)
      pure (pyStrip (w ++ " " ++ currencyName symbol ++ " and " ++ c ++ " "
        ++ centsWord symbol))
    else do
      let w ← numberToWordsNat (parseNat whole)
      pure (w ++ " " ++ currencyName symbol)
  | none => do
    let w ← numberToWordsNat (parseNat whole)
    pure (w ++ " " ++ currencyName symbol)

/-- `re.sub(r'([$€£¥])(\d+(?:\.\d{2})?)', replace_currency, text)` as a
left-to-right scan.  A match needs a currency sign directly followed by
at least one digit; the optional group consumes a point and exactly two
digits (a third digit stays in the text, as with the regex). -/
def currencyPass : Nat → List Char → Option (List Char)
  | 0, l => some l
  | _ + 1, [] => some []
  | fuel + 1, c :: rest =>
    if isCurrencySym c && !(rest.takeWhile isAsciiDigit).isEmpty then
      if (rest.dropWhile isAsciiDigit).head? == some '.' &&
          decide (2 ≤ (((rest.dropWhile isAsciiDigit).tail).takeWhile
            isAsciiDigit).length) then do
        let r ← replaceCurrency c (rest.takeWhile isAsciiDigit)
          (some (((rest.dropWhile isAsciiDigit).tail).take 2))
        let t ← currencyPass fuel (((rest.dropWhile isAsciiDigit).tail).drop 2)
        pure (r.data ++ t)
      else do
        let r ← replaceCurrency c (rest.takeWhile isAsciiDigit) none
        let t ← currencyPass fuel (rest.dropWhile isAsciiDigit)
        pure (r.data ++ t)
    else do
      let t ← currencyPass fuel rest
      pure (c :: t)

/-- `' '.join(_number_to_words(int(d)) for d in decimal)`: each decimal
digit is spelled on its own. -/
def spellDigits : List Char → Option (List String)
  | [] => some []
  | d :: ds => do
    let w ← numberToWordsNat (parseNat [d])
    let t ← spellDigits ds
    pure (w :: t)

/-- The body of `replace_percent`: the matched number, split at the
optional point. -/
def replacePercent (whole : List Char) (dec : Option (List Char)) :
    Option String :=
  match dec with
  | some ds => do
    let w ← numberToWordsNat (parseNat whole)
    let parts ← spellDigits ds
    pure (w ++ " point " ++ joinSp parts ++ " percent")
  | none => do
    let w ← numberToWordsNat (parseNat whole)
    pure (w ++ " percent")

/-- `re.sub(r'(\d+(?:\.\d+)?)\s*%', replace_percent, text)`.  A match
attempt starts at a digit; shortening one of the greedy runs can never
rescue a failed attempt (the character after a shortened run is a digit,
which neither `\s*` nor `%` accepts), so each attempt is deterministic
and on failure the engine retries one character further on, which the
scanner mirrors by emitting a single character. -/
def percentPass : Nat → List Char → Option (List Char)
  | 0, l => some l
  | _ + 1, [] => some []
  | fuel + 1, c :: rest =>
    if isAsciiDigit c then
      if ((c :: rest).dropWhile isAsciiDigit).head? == some '.' &&
          !((((c :: rest).dropWhile isAsciiDigit).tail).takeWhile
            isAsciiDigit).isEmpty then
        if (((((c :: rest).dropWhile isAsciiDigit).tail).dropWhile
            isAsciiDigit).dropWhile isPySpace).head? == some '%' then do
          let r ← replacePercent ((c :: rest).takeWhile isAsciiDigit)
            (some ((((c :: rest).dropWhile isAsciiDigit).tail).takeWhile
              isAsciiDigit))
          let t ← percentPass fuel (((((c :: rest).dropWhile
            isAsciiDigit).tail).dropWhile isAsciiDigit).dropWhile
            isPySpace).tail
          pure (r.data ++ t)
        else do
          let t ← percentPass fuel rest
          pure (c :: t)
      else
        if (((c :: rest).dropWhile isAsciiDigit).dropWhile
            isPySpace).head? == some '%' then do
          let r ← replacePercent ((c :: rest).takeWhile isAsciiDigit) none
          let t ← percentPass fuel (((c :: rest).dropWhile
            isAsciiDigit).dropWhile isPySpace).tail
          pure (r.data ++ t)
        else do
          let t ← percentPass fuel rest
          pure (c :: t)
    else do
      let t ← percentPass fuel rest
      pure (c :: t)

/-- Match attempt of `(\d{1,2}):(\d{2})` at one position: the greedy
two-digit hour is tried first; when it fails, the one-digit retreat
needs a colon where a digit stands, so it fails too.  Returns the parsed
hour, minute and the remaining text. -/
def timeMatch (c : Char) (rest : List Char) :
    Option (Nat × Nat × List Char) :=
  if isAsciiDigit c then
    match rest with
    | d :: rest₁ =>
      if isAsciiDigit d then
        match rest₁ with
        | ':' :: m₁ :: m₂ :: r₂ =>
          if isAsciiDigit m₁ && isAsciiDigit m₂ then
            some (parseNat [c, d], parseNat [m₁, m₂], r₂)
          else none
        | _ => none
      else if d = ':' then
        match rest₁ with
        | m₁ :: m₂ :: r₂ =>
          if isAsciiDigit m₁ && isAsciiDigit m₂ then
            some (parseNat [c], parseNat [m₁, m₂], r₂)
          else none
        | _ => none
      else none
    | [] => none
  else none

/-- Exact literal prefix match over characters. -/
def matchLitC : List Char → List Char → Bool
  | [], _ => true
  | _ :: _, [] => false
  | p :: ps, c :: cs => (p == c) && matchLitC ps cs

/-- The optional group `(AM|PM|am|pm|a\.m\.|p\.m\.)`, alternatives in
order; the result is the normalized period letter (`.lower()` with the
points removed keeps only `am` or `pm`, of which the second letter is
always `m`) and the remaining text. -/
def matchPeriod (l : List Char) : Option (Char × List Char) :=
  if matchLitC ['A', 'M'] l then some ('a', l.drop 2)
  else if matchLitC ['P', 'M'] l then some ('p', l.drop 2)
  else if matchLitC ['a', 'm'] l then some ('a', l.drop 2)
  else if matchLitC ['p', 'm'] l then some ('p', l.drop 2)
  else if matchLitC ['a', '.', 'm', '.'] l then some ('a', l.drop 4)
  else if matchLitC ['p', '.', 'm', '.'] l then some ('p', l.drop 4)
  else none

/-- The body of `replace_time`; the apostrophe of the clock word is
written by code point. -/
def replaceTime (hour minute : Nat) (period : Option Char) : Option String :=
  let suffix := match period with
    | some p => " " ++ p.toString ++ " m"
    | none => ""
  if minute = 0 then do
    let h ← numberToWordsNat hour
    pure (h ++ " o" ++ (Char.ofNat 39).toString ++ "clock" ++ suffix)
  else if minute < 10 then do
    let h ← numberToWordsNat hour
    let m ← numberToWordsNat minute
    pure (h ++ " oh " ++ m ++ suffix)
  else do
    let h ← numberToWordsNat hour
    let m ← numberToWordsNat minute
    pure (h ++ " " ++ m ++ suffix)

/-- `re.sub(r'(\d{1,2}):(\d{2})\s*(AM|PM|am|pm|a\.m\.|p\.m\.)?',
replace_time, text)`.  The greedy `\s*` stays inside the match even when
the optional period group is absent. -/
def timePass : Nat → List Char → Option (List Char)
  | 0, l => some l
  | _ + 1, [] => some []
  | fuel + 1, c :: rest =>
    match timeMatch c rest with
    | some (hour, minute, r₂) =>
      match matchPeriod (r₂.dropWhile isPySpace) with
      | some (p, r₃) => do
        let r ← replaceTime hour minute (some p)
        let t ← timePass fuel r₃
        pure (r.data ++ t)
      | none => do
        let r ← replaceTime hour minute none
        let t ← timePass fuel (r₂.dropWhile isPySpace)
        pure (r.data ++ t)
    | none => do
      let t ← timePass fuel rest
      pure (c :: t)

/-- `text.replace(pat, rep)` over characters (non-overlapping, left to
right); the pattern head is split off so the recursion is structural. -/
def replaceC (p : Char) (ps rep : List Char) : Nat → List Char → List Char
  | 0, l => l
  | _ + 1, [] => []
  | fuel + 1, c :: rest =>
    if matchLitC (p :: ps) (c :: rest) then
      rep ++ replaceC p ps rep fuel (rest.drop ps.length)
    else c :: replaceC p ps rep fuel rest

/-- `text.replace(pat, rep)` (the patterns of `normalize_symbols` are
never empty; an empty pattern is mapped to the identity). -/
def replaceStr (pat rep : List Char) (l : List Char) : List Char :=
  match pat with
  | [] => l
  | p :: ps => replaceC p ps rep l.length l

def isAsciiAlpha (c : Char) : Bool := isUpperCh c || isLowerCh c

/-- `re.sub(r'(?<=[a-zA-Z])\+(?=[a-zA-Z])', ' plus ', text)`: the
look-arounds consume nothing, so `prev` tracks the previous character of
the original text and scanning resumes right after a replaced `+`. -/
def plusBetween : Nat → Option Char → List Char → List Char
  | 0, _, l => l
  | _ + 1, _, [] => []
  | fuel + 1, prev, c :: rest =>
    if c = '+' && (prev.map isAsciiAlpha).getD false &&
        (rest.head?.map isAsciiAlpha).getD false then
      (" plus " : String).data ++ plusBetween fuel (some c) rest
    else c :: plusBetween fuel (some c) rest

/-- `re.sub(r'\s\+\s', ' plus ', text)`: three characters are consumed
per match, non-overlapping. -/
def plusStandalone : Nat → List Char → List Char
  | 0, l => l
  | _ + 1, [] => []
  | fuel + 1, c :: rest =>
    match rest with
    | p :: d :: rest₂ =>
      if isPySpace c && p = '+' && isPySpace d then
        (" plus " : String).data ++ plusStandalone fuel rest₂
      else c :: plusStandalone fuel rest
    | _ => c :: plusStandalone fuel rest

/-- The trailing simple replacements of `normalize_symbols`, in source
order. -/
def simpleSymbols (l : List Char) : List Char :=
  let l₁ := replaceStr (" & " : String).data (" and " : String).data l
  let l₂ := replaceStr ['&'] (" and " : String).data l₁
  let l₃ := plusBetween l₂.length none l₂
  let l₄ := plusStandalone l₃.length l₃
  let l₅ := replaceStr (" = " : String).data (" equals " : String).data l₄
  let l₆ := replaceStr ['@'] (" at " : String).data l₅
  let l₇ := replaceStr ['#'] (" number " : String).data l₆
  replaceStr (" / " : String).data (" slash " : String).data l₇

/-- `normalize_symbols(text)`. -/
def normalizeSymbols (s : String) : Option String := do
  let t₁ ← currencyPass s.data.length s.data
  let t₂ ← percentPass t₁.length t₁
  let t₃ ← timePass t₂.length t₂
  pure ⟨simpleSymbols t₃⟩

/-- Bound on digit runs: scanning left to right, at most `k` consecutive
digits may still follow at the current position, and at most 15 from any
later run start.  `runBound 15 l` says every maximal digit run of `l`
has at most 15 digits, so every amount the symbol passes parse stays
below `10 ^ 15`. -/
def runBound : Nat → List Char → Bool
  | _, [] => true
  | k, c :: rest =>
    if isAsciiDigit c then decide (0 < k) && runBound (k - 1) rest
    else runBound 15 rest

/-! Digit-run arithmetic. -/

theorem bind_some_eq {α β : Type} (a : α) (f : α → Option β) :
    ((some a : Option α) >>= f) = f a := rfl

theorem parseNat_foldl_lt : ∀ (l : List Char) (a : Nat),
    (∀ c ∈ l, isAsciiDigit c = true) →
    l.foldl (fun a c => a * 10 + (c.toNat - 48)) a < (a + 1) * 10 ^ l.length := by
  intro l
  induction l with
  | nil => intro a _; simpa using Nat.lt_succ_self a
  | cons c t ih =>
    intro a h
    have hc : isAsciiDigit c = true := h c (List.mem_cons_self c t)
    have hd : c.toNat - 48 ≤ 9 := by
      rcases Bool.and_eq_true_iff.mp hc with ⟨_, h2⟩
      have := of_decide_eq_true h2
      omega
    have ht : ∀ x ∈ t, isAsciiDigit x = true :=
      fun x hx => h x (List.mem_cons_of_mem c hx)
    rw [List.foldl_cons]
    calc t.foldl (fun a c => a * 10 + (c.toNat - 48)) (a * 10 + (c.toNat - 48))
        < (a * 10 + (c.toNat - 48) + 1) * 10 ^ t.length := ih _ ht
      _ ≤ (a + 1) * 10 ^ (c :: t).length := by
          rw [List.length_cons, pow_succ', ← Nat.mul_assoc]
          have hx : a * 10 + (c.toNat - 48) + 1 ≤ (a + 1) * 10 := by omega
          exact Nat.mul_le_mul_right _ hx

theorem parseNat_lt_pow (l : List Char) (h : ∀ c ∈ l, isAsciiDigit c = true) :
    parseNat l < 10 ^ l.length := by
  have := parseNat_foldl_lt l 0 h
  simpa [parseNat] using this

theorem parseNat_lt_big (l : List Char) (h : ∀ c ∈ l, isAsciiDigit c = true)
    (hlen : l.length ≤ 15) : parseNat l < 10 ^ 15 :=
  lt_of_lt_of_le (parseNat_lt_pow l h)
    (Nat.pow_le_pow_right (by norm_num) hlen)

theorem runBound_mono : ∀ (l : List Char) (j k : Nat), j ≤ k →
    runBound j l = true → runBound k l = true := by
  intro l
  induction l with
  | nil => intro j k _ _; rfl
  | cons c rest ih =>
    intro j k hjk h
    rw [runBound] at h ⊢
    by_cases hc : isAsciiDigit c = true
    · rw [if_pos hc] at h ⊢
      rcases Bool.and_eq_true_iff.mp h with ⟨h1, h2⟩
      have hj : 0 < j := of_decide_eq_true h1
      exact Bool.and_eq_true_iff.mpr
        ⟨decide_eq_true (by omega), ih (j - 1) (k - 1) (by omega) h2⟩
    · rw [if_neg hc] at h ⊢
      exact h

theorem runBound_tail_cons (c : Char) (rest : List Char) (k : Nat)
    (hk : k ≤ 15) (h : runBound k (c :: rest) = true) :
    runBound 15 rest = true := by
  rw [runBound] at h
  by_cases hc : isAsciiDigit c = true
  · rw [if_pos hc] at h
    rcases Bool.and_eq_true_iff.mp h with ⟨_, h2⟩
    exact runBound_mono rest (k - 1) 15 (by omega) h2
  · rw [if_neg hc] at h
    exact h

theorem runBound_suffix {l s : List Char} (hs : s <:+ l) :
    ∀ k : Nat, k ≤ 15 → runBound k l = true → runBound 15 s = true := by
  obtain ⟨pre, rfl⟩ := hs
  induction pre with
  | nil => intro k hk h; exact runBound_mono s k 15 hk h
  | cons c t ih =>
    intro k hk h
    exact ih 15 (le_refl 15) (runBound_tail_cons c (t ++ s) k hk h)

theorem takeWhile_digit_length_le : ∀ (l : List Char) (k : Nat),
    runBound k l = true → (l.takeWhile isAsciiDigit).length ≤ k := by
  intro l
  induction l with
  | nil => intro k _; simp
  | cons c rest ih =>
    intro k h
    rw [runBound] at h
    by_cases hc : isAsciiDigit c = true
    · rw [if_pos hc] at h
      rcases Bool.and_eq_true_iff.mp h with ⟨h1, h2⟩
      have hk : 0 < k := of_decide_eq_true h1
      rw [List.takeWhile_cons_of_pos hc]
      have := ih (k - 1) h2
      simp only [List.length_cons]
      omega
    · rw [if_neg hc] at h
      rw [List.takeWhile_cons_of_neg hc]
      simp

theorem parseNat_run_lt (l : List Char) (k : Nat) (hk : k ≤ 15)
    (h : runBound k l = true) :
    parseNat (l.takeWhile isAsciiDigit) < 10 ^ 15 := by
  apply parseNat_lt_big
  · intro c hc
    exact List.mem_takeWhile_imp hc
  · exact le_trans (takeWhile_digit_length_le l k h) hk

theorem numberToWordsNat_isSome (n : Nat) (h : n < 10 ^ 15) :
    (numberToWordsNat n).isSome := by
  rw [numberToWordsNat_eq n h]
  rfl

/-! The spelled words contain no digit, so the currency pass cannot
lengthen a digit run of its text. -/

def noDigits (l : List Char) : Bool := l.all (fun c => !isAsciiDigit c)

theorem noDigits_append {a b : List Char} (ha : noDigits a = true)
    (hb : noDigits b = true) : noDigits (a ++ b) = true := by
  unfold noDigits at *
  rw [List.all_append]
  exact Bool.and_eq_true_iff.mpr ⟨ha, hb⟩

theorem noDigits_sappend {s t : String} (hs : noDigits s.data = true)
    (ht : noDigits t.data = true) : noDigits (s ++ t).data = true := by
  rw [String.data_append]
  exact noDigits_append hs ht

theorem ONES_noDigits : ∀ w ∈ ONES, noDigits w.data = true := by decide

theorem TENS_noDigits : ∀ w ∈ TENS, noDigits w.data = true := by decide

theorem SCALES_noDigits : ∀ w ∈ SCALES, noDigits w.data = true := by decide

theorem tensWords_noDigits (n : Nat) (w : String) (h : tensWords n = some w) :
    noDigits w.data = true := by
  rw [tensWords] at h
  by_cases h20 : n < 20
  · rw [if_pos h20] at h
    exact ONES_noDigits w (List.get?_mem h)
  · rw [if_neg h20] at h
    cases ht : TENS.get? (n / 10) with
    | none => rw [ht] at h; simp at h
    | some t =>
      rw [ht] at h
      simp only [bind_some_eq] at h
      by_cases h10 : n % 10 ≠ 0
      · rw [if_pos h10] at h
        cases ho : ONES.get? (n % 10) with
        | none => rw [ho] at h; simp at h
        | some o =>
          rw [ho] at h
          simp only [bind_some_eq, Option.pure_def, Option.some.injEq] at h
          rw [← h]
          exact noDigits_sappend
            (noDigits_sappend (TENS_noDigits t (List.get?_mem ht)) (by decide))
            (ONES_noDigits o (List.get?_mem ho))
      · rw [if_neg h10] at h
        simp only [Option.pure_def, Option.some.injEq] at h
        rw [← h]
        exact TENS_noDigits t (List.get?_mem ht)

theorem smallWords_noDigits (n : Nat) (w : String)
    (h : smallWords n = some w) : noDigits w.data = true := by
  rw [smallWords] at h
  by_cases h100 : n < 100
  · rw [if_pos h100] at h
    exact tensWords_noDigits n w h
  · rw [if_neg h100] at h
    cases hh : ONES.get? (n / 100) with
    | none => rw [hh] at h; simp at h
    | some o =>
      rw [hh] at h
      simp only [bind_some_eq] at h
      by_cases h10 : n % 100 ≠ 0
      · rw [if_pos h10] at h
        cases hr : tensWords (n % 100) with
        | none => rw [hr] at h; simp at h
        | some r =>
          rw [hr] at h
          simp only [bind_some_eq, Option.pure_def, Option.some.injEq] at h
          rw [← h]
          exact noDigits_sappend
            (noDigits_sappend (ONES_noDigits o (List.get?_mem hh)) (by decide))
            (tensWords_noDigits (n % 100) r hr)
      · rw [if_neg h10] at h
        simp only [Option.pure_def, Option.some.injEq] at h
        rw [← h]
        exact noDigits_sappend (ONES_noDigits o (List.get?_mem hh)) (by decide)

theorem bigParts_noDigits : ∀ (fuel n idx : Nat) (parts : List String),
    bigParts fuel n idx = some parts → ∀ p ∈ parts, noDigits p.data = true := by
  intro fuel
  induction fuel with
  | zero =>
    intro n idx parts h p hp
    cases n with
    | zero =>
      rw [bigParts] at h
      simp only [Option.some.injEq] at h
      rw [← h] at hp
      simp at hp
    | succ m =>
      rw [bigParts] at h
      simp only [Option.some.injEq] at h
      rw [← h] at hp
      simp at hp
  | succ fuel ih =>
    intro n idx parts h p hp
    cases n with
    | zero =>
      rw [bigParts] at h
      simp only [Option.some.injEq] at h
      rw [← h] at hp
      simp at hp
    | succ m =>
      rw [bigParts] at h
      cases htail : bigParts fuel ((m + 1) / 1000) (idx + 1) with
      | none => rw [htail] at h; simp at h
      | some tail =>
        rw [htail] at h
        simp only [bind_some_eq] at h
        have htl : ∀ q ∈ tail, noDigits q.data = true :=
          fun q hq => ih _ _ _ htail q hq
        by_cases hz : (m + 1) % 1000 ≠ 0
        · rw [if_pos hz] at h
          cases hw : smallWords ((m + 1) % 1000) with
          | none => rw [hw] at h; simp at h
          | some w =>
            rw [hw] at h
            simp only [bind_some_eq] at h
            by_cases hidx : idx = 0
            · rw [if_pos hidx] at h
              simp only [Option.pure_def, Option.some.injEq] at h
              rw [← h] at hp
              rcases List.mem_append.mp hp with hp1 | hp1
              · exact htl p hp1
              · rw [List.mem_singleton] at hp1
                rw [hp1]
                exact smallWords_noDigits _ w hw
            · rw [if_neg hidx] at h
              cases hsc : SCALES.get? idx with
              | none => rw [hsc] at h; simp at h
              | some sc =>
                rw [hsc] at h
                simp only [bind_some_eq, Option.pure_def, Option.some.injEq] at h
                rw [← h] at hp
                rcases List.mem_append.mp hp with hp1 | hp1
                · exact htl p hp1
                · rw [List.mem_singleton] at hp1
                  rw [hp1]
                  exact noDigits_sappend
                    (noDigits_sappend (smallWords_noDigits _ w hw) (by decide))
                    (SCALES_noDigits sc (List.get?_mem hsc))
        · rw [if_neg hz] at h
          simp only [Option.pure_def, Option.some.injEq] at h
          rw [← h] at hp
          exact htl p hp

theorem joinSp_noDigits : ∀ (parts : List String),
    (∀ p ∈ parts, noDigits p.data = true) →
    noDigits (joinSp parts).data = true
  | [], _ => by decide
  | [s], h => h s (List.mem_singleton.mpr rfl)
  | s :: t :: r, h => by
    rw [joinSp_cons₂]
    refine noDigits_sappend (noDigits_sappend (h s (List.mem_cons_self s _))
      (by decide)) ?_
    exact joinSp_noDigits (t :: r) (fun p hp => h p (List.mem_cons_of_mem s hp))

theorem numberToWordsNat_noDigits (n : Nat) (w : String)
    (h : numberToWordsNat n = some w) : noDigits w.data = true := by
  rw [numberToWordsNat] at h
  by_cases h0 : n = 0
  · rw [if_pos h0] at h
    simp only [Option.some.injEq] at h
    rw [← h]
    decide
  · rw [if_neg h0] at h
    by_cases hs : n < 1000
    · rw [if_pos hs] at h
      exact smallWords_noDigits n w h
    · rw [if_neg hs] at h
      cases hb : bigParts n n 0 with
      | none => rw [hb] at h; simp at h
      | some parts =>
        rw [hb] at h
        simp only [bind_some_eq, Option.pure_def, Option.some.injEq] at h
        rw [← h]
        exact joinSp_noDigits parts (bigParts_noDigits n n 0 parts hb)

theorem currencyName_noDigits (c : Char) :
    noDigits (currencyName c).data = true := by
  unfold currencyName
  split_ifs <;> decide

theorem currencyName_ne_nil (c : Char) : (currencyName c).data ≠ [] := by
  unfold currencyName
  split_ifs <;> decide

theorem centsWord_noDigits (c : Char) : noDigits (centsWord c).data = true := by
  unfold centsWord
  split_ifs <;> decide

theorem pyStripL_noDigits {l : List Char} (h : noDigits l = true) :
    noDigits (pyStripL l) = true := by
  unfold noDigits at h ⊢
  rw [List.all_eq_true] at h ⊢
  intro c hc
  apply h
  unfold pyStripL at hc
  rw [List.mem_reverse] at hc
  have h1 := (List.dropWhile_suffix isPySpace).subset hc
  rw [List.mem_reverse] at h1
  exact (List.dropWhile_suffix isPySpace).subset h1

theorem pyStripL_ne_nil_of_mem {l : List Char} {c : Char} (hc : c ∈ l)
    (hns : isPySpace c = false) : pyStripL l ≠ [] := by
  intro h
  unfold pyStripL at h
  rw [List.reverse_eq_nil_iff] at h
  have h2 : ∀ a ∈ (l.dropWhile isPySpace).reverse, isPySpace a = true :=
    List.dropWhile_eq_nil_iff.mp h
  have hcd : c ∈ l.dropWhile isPySpace := by
    rw [← List.takeWhile_append_dropWhile isPySpace l] at hc
    rcases List.mem_append.mp hc with h3 | h3
    · exact absurd (List.mem_takeWhile_imp h3) (by simp [hns])
    · exact h3
  exact absurd (h2 c (List.mem_reverse.mpr hcd)) (by simp [hns])

/-- Every string `replace_currency` produces is non-empty and free of
digits. -/
theorem replaceCurrency_spec (sym : Char) (whole : List Char)
    (cents : Option (List Char)) (r : String)
    (h : replaceCurrency sym whole cents = some r) :
    noDigits r.data = true ∧ r.data ≠ [] := by
  cases cents with
  | none =>
    simp only [replaceCurrency] at h
    cases hw : numberToWordsNat (parseNat whole) with
    | none => rw [hw] at h; simp at h
    | some w =>
      rw [hw] at h
      simp only [bind_some_eq, Option.pure_def, Option.some.injEq] at h
      rw [← h]
      constructor
      · exact noDigits_sappend
          (noDigits_sappend (numberToWordsNat_noDigits _ w hw) (by decide))
          (currencyName_noDigits sym)
      · rw [String.data_append]
        intro hnil
        exact currencyName_ne_nil sym (List.append_eq_nil.mp hnil).2
  | some cs =>
    simp only [replaceCurrency] at h
    by_cases h0 : 0 < parseNat cs
    · rw [if_pos h0] at h
      cases hw : numberToWordsNat (parseNat whole) with
      | none => rw [hw] at h; simp at h
      | some w =>
        rw [hw] at h
        simp only [bind_some_eq] at h
        cases hc2 : numberToWordsNat (parseNat cs) with
        | none => rw [hc2] at h; simp at h
        | some cw =>
          rw [hc2] at h
          simp only [bind_some_eq, Option.pure_def, Option.some.injEq] at h
          rw [← h]
          have hnd : noDigits (w ++ " " ++ currencyName sym ++ " and " ++ cw
              ++ " " ++ centsWord sym).data = true :=
            noDigits_sappend (noDigits_sappend (noDigits_sappend
              (noDigits_sappend (noDigits_sappend
                (noDigits_sappend (numberToWordsNat_noDigits _ w hw)
                  (by decide))
                (currencyName_noDigits sym)) (by decide))
              (numberToWordsNat_noDigits _ cw hc2)) (by decide))
              (centsWord_noDigits sym)
          constructor
          · show noDigits (pyStripL (w ++ " " ++ currencyName sym ++ " and "
              ++ cw ++ " " ++ centsWord sym).data) = true
            exact pyStripL_noDigits hnd
          · show pyStripL (w ++ " " ++ currencyName sym ++ " and " ++ cw
              ++ " " ++ centsWord sym).data ≠ []
            apply pyStripL_ne_nil_of_mem (c := 'n')
            · rw [String.data_append, String.data_append, String.data_append,
                String.data_append, String.data_append]
              exact List.mem_append_left _ (List.mem_append_left _
                (List.mem_append_left _ (List.mem_append_right _ (by decide))))
            · decide
    · rw [if_neg h0] at h
      cases hw : numberToWordsNat (parseNat whole) with
      | none => rw [hw] at h; simp at h
      | some w =>
        rw [hw] at h
        simp only [bind_some_eq, Option.pure_def, Option.some.injEq] at h
        rw [← h]
        constructor
        · exact noDigits_sappend
            (noDigits_sappend (numberToWordsNat_noDigits _ w hw) (by decide))
            (currencyName_noDigits sym)
        · rw [String.data_append]
          intro hnil
          exact currencyName_ne_nil sym (List.append_eq_nil.mp hnil).2

theorem runBound_append_noDigits : ∀ (xs ys : List Char),
    noDigits xs = true → runBound 15 ys = true →
    runBound 15 (xs ++ ys) = true := by
  intro xs
  induction xs with
  | nil => intro ys _ h; simpa using h
  | cons x t ih =>
    intro ys hx hy
    unfold noDigits at hx
    rw [List.all_cons] at hx
    rcases Bool.and_eq_true_iff.mp hx with ⟨h1, h2⟩
    have hxd : isAsciiDigit x = false := by simpa using h1
    rw [List.cons_append, runBound, if_neg (by simp [hxd])]
    exact ih ys h2 hy

theorem isCurrencySym_not_digit (c : Char) (h : isCurrencySym c = true) :
    isAsciiDigit c = false := by
  have hm : c ∈ ['$', '€', '£', '¥'] := by
    simpa [isCurrencySym] using h
  rcases List.mem_cons.mp hm with rfl | hm
  · decide
  rcases List.mem_cons.mp hm with rfl | hm
  · decide
  rcases List.mem_cons.mp hm with rfl | hm
  · decide
  rcases List.mem_cons.mp hm with rfl | hm
  · decide
  · simp at hm

/-! Success and digit-run preservation of the three substitution
passes. -/

theorem replaceCurrency_isSome (sym : Char) (whole : List Char)
    (cents : Option (List Char)) (hw : parseNat whole < 10 ^ 15)
    (hc : ∀ l, cents = some l → parseNat l < 10 ^ 15) :
    (replaceCurrency sym whole cents).isSome := by
  cases cents with
  | none =>
    simp only [replaceCurrency]
    have h1 := numberToWordsNat_isSome _ hw
    cases hx : numberToWordsNat (parseNat whole) with
    | none => rw [hx] at h1; simp at h1
    | some w => simp [hx]
  | some cs =>
    simp only [replaceCurrency]
    have h1 := numberToWordsNat_isSome _ hw
    have h2 := numberToWordsNat_isSome _ (hc cs rfl)
    by_cases h0 : 0 < parseNat cs
    · rw [if_pos h0]
      cases hx : numberToWordsNat (parseNat whole) with
      | none => rw [hx] at h1; simp at h1
      | some w =>
        cases hy : numberToWordsNat (parseNat cs) with
        | none => rw [hy] at h2; simp at h2
        | some cw => simp [hx, hy]
    · rw [if_neg h0]
      cases hx : numberToWordsNat (parseNat whole) with
      | none => rw [hx] at h1; simp at h1
      | some w => simp [hx]

theorem spellDigits_isSome : ∀ (l : List Char),
    (∀ c ∈ l, isAsciiDigit c = true) → (spellDigits l).isSome := by
  intro l
  induction l with
  | nil => intro _; rfl
  | cons d ds ih =>
    intro h
    rw [spellDigits]
    have h1 : parseNat [d] < 10 ^ 15 := by
      apply parseNat_lt_big
      · intro c hc
        rw [List.mem_singleton] at hc
        rw [hc]
        exact h d (List.mem_cons_self d ds)
      · simp
    have h2 := numberToWordsNat_isSome _ h1
    have h3 := ih (fun c hc => h c (List.mem_cons_of_mem d hc))
    cases hw : numberToWordsNat (parseNat [d]) with
    | none => rw [hw] at h2; simp at h2
    | some w =>
      cases hs : spellDigits ds with
      | none => rw [hs] at h3; simp at h3
      | some t => simp [hw, hs]

theorem replacePercent_isSome (whole : List Char) (dec : Option (List Char))
    (hw : parseNat whole < 10 ^ 15)
    (hd : ∀ l, dec = some l → ∀ c ∈ l, isAsciiDigit c = true) :
    (replacePercent whole dec).isSome := by
  cases dec with
  | none =>
    simp only [replacePercent]
    have h1 := numberToWordsNat_isSome _ hw
    cases hx : numberToWordsNat (parseNat whole) with
    | none => rw [hx] at h1; simp at h1
    | some w => simp [hx]
  | some ds =>
    simp only [replacePercent]
    have h1 := numberToWordsNat_isSome _ hw
    have h2 := spellDigits_isSome ds (hd ds rfl)
    cases hx : numberToWordsNat (parseNat whole) with
    | none => rw [hx] at h1; simp at h1
    | some w =>
      cases hy : spellDigits ds with
      | none => rw [hy] at h2; simp at h2
      | some parts => simp [hx, hy]

theorem currencyPass_isSome : ∀ (fuel : Nat) (l : List Char) (k : Nat),
    k ≤ 15 → runBound k l = true → (currencyPass fuel l).isSome := by
  intro fuel
  induction fuel with
  | zero => intro l k _ _; rfl
  | succ fuel ih =>
    intro l k hk h
    cases l with
    | nil => rfl
    | cons c rest =>
      rw [currencyPass]
      by_cases h1 : (isCurrencySym c &&
          !(rest.takeWhile isAsciiDigit).isEmpty) = true
      · rw [if_pos h1]
        rcases Bool.and_eq_true_iff.mp h1 with ⟨hsym, _⟩
        have hcnd : isAsciiDigit c = false := isCurrencySym_not_digit c hsym
        have hrest : runBound 15 rest = true := by
          rw [runBound, if_neg (by simp [hcnd])] at h
          exact h
        have hwlt : parseNat (rest.takeWhile isAsciiDigit) < 10 ^ 15 :=
          parseNat_run_lt rest 15 (le_refl 15) hrest
        by_cases h2 : ((rest.dropWhile isAsciiDigit).head? == some '.' &&
            decide (2 ≤ (((rest.dropWhile isAsciiDigit).tail).takeWhile
              isAsciiDigit).length)) = true
        · rw [if_pos h2]
          rcases Bool.and_eq_true_iff.mp h2 with ⟨_, hlen2⟩
          have hlen2' : 2 ≤ (((rest.dropWhile isAsciiDigit).tail).takeWhile
              isAsciiDigit).length := of_decide_eq_true hlen2
          have hcents : parseNat (((rest.dropWhile isAsciiDigit).tail).take 2)
              < 10 ^ 15 := by
            apply parseNat_lt_big
            · intro x hx
              have heq : ((rest.dropWhile isAsciiDigit).tail).take 2 =
                  (((rest.dropWhile isAsciiDigit).tail).takeWhile
                    isAsciiDigit).take 2 := by
                conv_lhs => rw [← List.takeWhile_append_dropWhile isAsciiDigit
                  ((rest.dropWhile isAsciiDigit).tail)]
                rw [List.take_append_of_le_length hlen2']
              rw [heq] at hx
              exact List.mem_takeWhile_imp (List.take_subset 2 _ hx)
            · exact le_trans (List.length_take_le _ _) (by norm_num)
          have hrepl := replaceCurrency_isSome c (rest.takeWhile isAsciiDigit)
            (some (((rest.dropWhile isAsciiDigit).tail).take 2)) hwlt
            (by intro l0 hl0; injection hl0 with hh; rw [← hh]; exact hcents)
          have hsuf : (((rest.dropWhile isAsciiDigit).tail).drop 2) <:+
              (c :: rest) :=
            ((List.drop_suffix 2 _).trans ((List.tail_suffix _).trans
              (List.dropWhile_suffix isAsciiDigit))).trans
              (List.suffix_cons c rest)
          have hrec := ih (((rest.dropWhile isAsciiDigit).tail).drop 2) 15
            (le_refl 15) (runBound_suffix hsuf k hk h)
          cases hR : replaceCurrency c (rest.takeWhile isAsciiDigit)
              (some (((rest.dropWhile isAsciiDigit).tail).take 2)) with
          | none => rw [hR] at hrepl; simp at hrepl
          | some r =>
            cases hT : currencyPass fuel
                (((rest.dropWhile isAsciiDigit).tail).drop 2) with
            | none => rw [hT] at hrec; simp at hrec
            | some t => simp [hR, hT]
        · rw [if_neg h2]
          have hrepl := replaceCurrency_isSome c (rest.takeWhile isAsciiDigit)
            none hwlt (by intro l0 hl0; exact absurd hl0 (by simp))
          have hsuf : rest.dropWhile isAsciiDigit <:+ (c :: rest) :=
            (List.dropWhile_suffix isAsciiDigit).trans (List.suffix_cons c rest)
          have hrec := ih (rest.dropWhile isAsciiDigit) 15 (le_refl 15)
            (runBound_suffix hsuf k hk h)
          cases hR : replaceCurrency c (rest.takeWhile isAsciiDigit) none with
          | none => rw [hR] at hrepl; simp at hrepl
          | some r =>
            cases hT : currencyPass fuel (rest.dropWhile isAsciiDigit) with
            | none => rw [hT] at hrec; simp at hrec
            | some t => simp [hR, hT]
      · rw [if_neg h1]
        have hrec := ih rest 15 (le_refl 15) (runBound_tail_cons c rest k hk h)
        cases hT : currencyPass fuel rest with
        | none => rw [hT] at hrec; simp at hrec
        | some t => simp [hT]

theorem currencyPass_runBound : ∀ (fuel : Nat) (l : List Char) (k : Nat),
    k ≤ 15 → runBound k l = true → ∀ out, currencyPass fuel l = some out →
    runBound k out = true := by
  intro fuel
  induction fuel with
  | zero =>
    intro l k _ h out hout
    simp only [currencyPass, Option.some.injEq] at hout
    rw [← hout]
    exact h
  | succ fuel ih =>
    intro l k hk h out hout
    cases l with
    | nil =>
      simp only [currencyPass, Option.some.injEq] at hout
      rw [← hout]
      rfl
    | cons c rest =>
      rw [currencyPass] at hout
      by_cases h1 : (isCurrencySym c &&
          !(rest.takeWhile isAsciiDigit).isEmpty) = true
      · rw [if_pos h1] at hout
        rcases Bool.and_eq_true_iff.mp h1 with ⟨hsym, _⟩
        have hcnd : isAsciiDigit c = false := isCurrencySym_not_digit c hsym
        by_cases h2 : ((rest.dropWhile isAsciiDigit).head? == some '.' &&
            decide (2 ≤ (((rest.dropWhile isAsciiDigit).tail).takeWhile
              isAsciiDigit).length)) = true
        · rw [if_pos h2] at hout
          cases hR : replaceCurrency c (rest.takeWhile isAsciiDigit)
              (some (((rest.dropWhile isAsciiDigit).tail).take 2)) with
          | none => rw [hR] at hout; simp at hout
          | some r =>
            rw [hR] at hout
            simp only [bind_some_eq] at hout
            cases hT : currencyPass fuel
                (((rest.dropWhile isAsciiDigit).tail).drop 2) with
            | none => rw [hT] at hout; simp at hout
            | some t =>
              rw [hT] at hout
              simp only [bind_some_eq, Option.pure_def, Option.some.injEq] at hout
              rw [← hout]
              obtain ⟨hrnd, hrne⟩ := replaceCurrency_spec _ _ _ _ hR
              have hsuf : (((rest.dropWhile isAsciiDigit).tail).drop 2) <:+
                  (c :: rest) :=
                ((List.drop_suffix 2 _).trans ((List.tail_suffix _).trans
                  (List.dropWhile_suffix isAsciiDigit))).trans
                  (List.suffix_cons c rest)
              have htb : runBound 15 t = true := ih _ 15 (le_refl 15)
                (runBound_suffix hsuf k hk h) t hT
              cases hrd : r.data with
              | nil => exact absurd hrd hrne
              | cons r₀ rr =>
                have hx : noDigits (r₀ :: rr) = true := hrd ▸ hrnd
                unfold noDigits at hx
                rw [List.all_cons] at hx
                rcases Bool.and_eq_true_iff.mp hx with ⟨hx1, hx2⟩
                have hr₀ : isAsciiDigit r₀ = false := by simpa using hx1
                rw [List.cons_append, runBound, if_neg (by simp [hr₀])]
                exact runBound_append_noDigits rr t hx2 htb
        · rw [if_neg h2] at hout
          cases hR : replaceCurrency c (rest.takeWhile isAsciiDigit) none with
          | none => rw [hR] at hout; simp at hout
          | some r =>
            rw [hR] at hout
            simp only [bind_some_eq] at hout
            cases hT : currencyPass fuel (rest.dropWhile isAsciiDigit) with
            | none => rw [hT] at hout; simp at hout
            | some t =>
              rw [hT] at hout
              simp only [bind_some_eq, Option.pure_def, Option.some.injEq] at hout
              rw [← hout]
              obtain ⟨hrnd, hrne⟩ := replaceCurrency_spec _ _ _ _ hR
              have hsuf : rest.dropWhile isAsciiDigit <:+ (c :: rest) :=
                (List.dropWhile_suffix isAsciiDigit).trans
                  (List.suffix_cons c rest)
              have htb : runBound 15 t = true := ih _ 15 (le_refl 15)
                (runBound_suffix hsuf k hk h) t hT
              cases hrd : r.data with
              | nil => exact absurd hrd hrne
              | cons r₀ rr =>
                have hx : noDigits (r₀ :: rr) = true := hrd ▸ hrnd
                unfold noDigits at hx
                rw [List.all_cons] at hx
                rcases Bool.and_eq_true_iff.mp hx with ⟨hx1, hx2⟩
                have hr₀ : isAsciiDigit r₀ = false := by simpa using hx1
                rw [List.cons_append, runBound, if_neg (by simp [hr₀])]
                exact runBound_append_noDigits rr t hx2 htb
      · rw [if_neg h1] at hout
        cases hT : currencyPass fuel rest with
        | none => rw [hT] at hout; simp at hout
        | some t =>
          rw [hT] at hout
          simp only [bind_some_eq, Option.pure_def, Option.some.injEq] at hout
          rw [← hout]
          rw [runBound] at h ⊢
          by_cases hc : isAsciiDigit c = true
          · rw [if_pos hc] at h ⊢
            rcases Bool.and_eq_true_iff.mp h with ⟨hpos, htl⟩
            have hk0 : 0 < k := of_decide_eq_true hpos
            exact Bool.and_eq_true_iff.mpr
              ⟨hpos, ih rest (k - 1) (by omega) htl t hT⟩
          · rw [if_neg hc] at h ⊢
            exact ih rest 15 (le_refl 15) h t hT

theorem percentPass_isSome : ∀ (fuel : Nat) (l : List Char) (k : Nat),
    k ≤ 15 → runBound k l = true → (percentPass fuel l).isSome := by
  intro fuel
  induction fuel with
  | zero => intro l k _ _; rfl
  | succ fuel ih =>
    intro l k hk h
    cases l with
    | nil => rfl
    | cons c rest =>
      rw [percentPass]
      have hrest15 : runBound 15 rest = true := runBound_tail_cons c rest k hk h
      by_cases h1 : isAsciiDigit c = true
      · rw [if_pos h1]
        have hwlt : parseNat ((c :: rest).takeWhile isAsciiDigit) < 10 ^ 15 :=
          parseNat_run_lt (c :: rest) k hk h
        by_cases h2 : (((c :: rest).dropWhile isAsciiDigit).head? == some '.' &&
            !((((c :: rest).dropWhile isAsciiDigit).tail).takeWhile
              isAsciiDigit).isEmpty) = true
        · rw [if_pos h2]
          by_cases h3 : ((((((c :: rest).dropWhile isAsciiDigit).tail).dropWhile
              isAsciiDigit).dropWhile isPySpace).head? == some '%') = true
          · rw [if_pos h3]
            have hrepl := replacePercent_isSome
              ((c :: rest).takeWhile isAsciiDigit)
              (some ((((c :: rest).dropWhile isAsciiDigit).tail).takeWhile
                isAsciiDigit)) hwlt
              (by
                intro l0 hl0 x hx
                injection hl0 with hh
                rw [← hh] at hx
                exact List.mem_takeWhile_imp hx)
            have hsuf : (((((c :: rest).dropWhile isAsciiDigit).tail).dropWhile
                isAsciiDigit).dropWhile isPySpace).tail <:+ (c :: rest) :=
              (List.tail_suffix _).trans ((List.dropWhile_suffix isPySpace).trans
                ((List.dropWhile_suffix isAsciiDigit).trans
                  ((List.tail_suffix _).trans
                    (List.dropWhile_suffix isAsciiDigit))))
            have hrec := ih _ 15 (le_refl 15) (runBound_suffix hsuf k hk h)
            cases hR : replacePercent ((c :: rest).takeWhile isAsciiDigit)
                (some ((((c :: rest).dropWhile isAsciiDigit).tail).takeWhile
                  isAsciiDigit)) with
            | none => rw [hR] at hrepl; simp at hrepl
            | some r =>
              cases hT : percentPass fuel
                  (((((c :: rest).dropWhile isAsciiDigit).tail).dropWhile
                    isAsciiDigit).dropWhile isPySpace).tail with
              | none => rw [hT] at hrec; simp at hrec
              | some t => simp [hR, hT]
          · rw [if_neg h3]
            have hrec := ih rest 15 (le_refl 15) hrest15
            cases hT : percentPass fuel rest with
            | none => rw [hT] at hrec; simp at hrec
            | some t => simp [hT]
        · rw [if_neg h2]
          by_cases h3 : ((((c :: rest).dropWhile isAsciiDigit).dropWhile
              isPySpace).head? == some '%') = true
          · rw [if_pos h3]
            have hrepl := replacePercent_isSome
              ((c :: rest).takeWhile isAsciiDigit) none hwlt
              (by intro l0 hl0; exact absurd hl0 (by simp))
            have hsuf : (((c :: rest).dropWhile isAsciiDigit).dropWhile
                isPySpace).tail <:+ (c :: rest) :=
              (List.tail_suffix _).trans ((List.dropWhile_suffix isPySpace).trans
                (List.dropWhile_suffix isAsciiDigit))
            have hrec := ih _ 15 (le_refl 15) (runBound_suffix hsuf k hk h)
            cases hR : replacePercent ((c :: rest).takeWhile isAsciiDigit)
                none with
            | none => rw [hR] at hrepl; simp at hrepl
            | some r =>
              cases hT : percentPass fuel
                  (((c :: rest).dropWhile isAsciiDigit).dropWhile
                    isPySpace).tail with
              | none => rw [hT] at hrec; simp at hrec
              | some t => simp [hR, hT]
          · rw [if_neg h3]
            have hrec := ih rest 15 (le_refl 15) hrest15
            cases hT : percentPass fuel rest with
            | none => rw [hT] at hrec; simp at hrec
            | some t => simp [hT]
      · rw [if_neg h1]
        have hrec := ih rest 15 (le_refl 15) hrest15
        cases hT : percentPass fuel rest with
        | none => rw [hT] at hrec; simp at hrec
        | some t => simp [hT]

theorem timeMatch_bounds (c : Char) (rest : List Char) (x : Nat × Nat × List Char)
    (ht : timeMatch c rest = some x) : x.1 < 10 ^ 15 ∧ x.2.1 < 10 ^ 15 := by
  unfold timeMatch at ht
  split at ht
  · rename_i hc
    split at ht
    · rename_i d rest₁
      split at ht
      · rename_i hd
        split at ht
        · rename_i m₁ m₂ r₂
          split at ht
          · rename_i hm
            rcases Bool.and_eq_true_iff.mp hm with ⟨hm₁, hm₂⟩
            injection ht with ht
            rw [← ht]
            constructor
            · apply parseNat_lt_big
              · intro y hy
                rcases List.mem_cons.mp hy with rfl | hy
                · exact hc
                · rw [List.mem_singleton] at hy
                  rw [hy]
                  exact hd
              · simp
            · apply parseNat_lt_big
              · intro y hy
                rcases List.mem_cons.mp hy with rfl | hy
                · exact hm₁
                · rw [List.mem_singleton] at hy
                  rw [hy]
                  exact hm₂
              · simp
          · exact absurd ht (by simp)
        · exact absurd ht (by simp)
      · split at ht
        · split at ht
          · rename_i m₁ m₂ r₂
            split at ht
            · rename_i hm
              rcases Bool.and_eq_true_iff.mp hm with ⟨hm₁, hm₂⟩
              injection ht with ht
              rw [← ht]
              constructor
              · apply parseNat_lt_big
                · intro y hy
                  rw [List.mem_singleton] at hy
                  rw [hy]
                  exact hc
                · simp
              · apply parseNat_lt_big
                · intro y hy
                  rcases List.mem_cons.mp hy with rfl | hy
                  · exact hm₁
                  · rw [List.mem_singleton] at hy
                    rw [hy]
                    exact hm₂
                · simp
            · exact absurd ht (by simp)
          · exact absurd ht (by simp)
        · exact absurd ht (by simp)
    · exact absurd ht (by simp)
  · exact absurd ht (by simp)

theorem replaceTime_isSome (hour minute : Nat) (period : Option Char)
    (hh : hour < 10 ^ 15) (hm : minute < 10 ^ 15) :
    (replaceTime hour minute period).isSome := by
  have h1 := numberToWordsNat_isSome _ hh
  have h2 := numberToWordsNat_isSome _ hm
  unfold replaceTime
  by_cases h0 : minute = 0
  · rw [if_pos h0]
    cases hx : numberToWordsNat hour with
    | none => rw [hx] at h1; simp at h1
    | some w => simp [hx]
  · rw [if_neg h0]
    by_cases h10 : minute < 10
    · rw [if_pos h10]
      cases hx : numberToWordsNat hour with
      | none => rw [hx] at h1; simp at h1
      | some w =>
        cases hy : numberToWordsNat minute with
        | none => rw [hy] at h2; simp at h2
        | some m => simp [hx, hy]
    · rw [if_neg h10]
      cases hx : numberToWordsNat hour with
      | none => rw [hx] at h1; simp at h1
      | some w =>
        cases hy : numberToWordsNat minute with
        | none => rw [hy] at h2; simp at h2
        | some m => simp [hx, hy]

theorem timePass_isSome : ∀ (fuel : Nat) (l : List Char),
    (timePass fuel l).isSome := by
  intro fuel
  induction fuel with
  | zero => intro l; rfl
  | succ fuel ih =>
    intro l
    cases l with
    | nil => rfl
    | cons c rest =>
      rw [timePass]
      cases htm : timeMatch c rest with
      | none =>
        have hrec := ih rest
        cases hT : timePass fuel rest with
        | none => rw [hT] at hrec; simp at hrec
        | some t => simp [hT]
      | some x =>
        obtain ⟨hour, minute, r₂⟩ := x
        obtain ⟨hh, hm⟩ := timeMatch_bounds c rest _ htm
        cases hp : matchPeriod (r₂.dropWhile isPySpace) with
        | some pr =>
          obtain ⟨p, r₃⟩ := pr
          have hrt := replaceTime_isSome hour minute (some p) hh hm
          cases hR : replaceTime hour minute (some p) with
          | none => rw [hR] at hrt; simp at hrt
          | some r =>
            have hrec := ih r₃
            cases hT : timePass fuel r₃ with
            | none => rw [hT] at hrec; simp at hrec
            | some t => simp [hp, hR, hT]
        | none =>
          have hrt := replaceTime_isSome hour minute none hh hm
          cases hR : replaceTime hour minute none with
          | none => rw [hR] at hrt; simp at hrt
          | some r =>
            have hrec := ih (r₂.dropWhile isPySpace)
            cases hT : timePass fuel (r₂.dropWhile isPySpace) with
            | none => rw [hT] at hrec; simp at hrec
            | some t => simp [hp, hR, hT]

theorem normalizeSymbols_isSome (s : String) (h : runBound 15 s.data = true) :
    (normalizeSymbols s).isSome := by
  unfold normalizeSymbols
  have h1 := currencyPass_isSome s.data.length s.data 15 (le_refl 15) h
  cases hc : currencyPass s.data.length s.data with
  | none => rw [hc] at h1; simp at h1
  | some t₁ =>
    have hb1 : runBound 15 t₁ = true :=
      currencyPass_runBound s.data.length s.data 15 (le_refl 15) h t₁ hc
    have h2 := percentPass_isSome t₁.length t₁ 15 (le_refl 15) hb1
    cases hp : percentPass t₁.length t₁ with
    | none => rw [hp] at h2; simp at h2
    | some t₂ =>
      have h3 := timePass_isSome t₂.length t₂
      cases htt : timePass t₂.length t₂ with
      | none => rw [htt] at h3; simp at h3
      | some t₃ => simp [hc, hp, htt]
/-- C1 (amended): totality boundaries of the stages that can raise.
The numeric-entity decoder of `strip_html` succeeds exactly on
references below 0x110000 — `strip_html` returns a value whenever every
numeric reference of its entity-decoded text is in range.  The number
speller raises IndexError past the trillion scale and succeeds on every
integer of magnitude below 10^15; `normalize_numbers` on a digit token
below that bound therefore succeeds, and `normalize_symbols` — whose
currency and percent replacers feed the speller unboundedly — succeeds
whenever every maximal digit run of its input has at most 15 digits. -/
theorem stage_totality_boundaries :
    (∀ l : List Nat,
      refsOK (entityPass (stripTags l.length l)).length
        (entityPass (stripTags l.length l)) = true →
      (stripHtml l).isSome) ∧
    (∀ n : Int, n.natAbs < 10 ^ 15 → (numberToWords n).isSome) ∧
    (∀ s : String, s.data ≠ [] → (∀ c ∈ s.data, isAsciiDigit c = true) →
      parseNat s.data < 10 ^ 15 → (normalizeNumbers s).isSome) ∧
    (∀ s : String, runBound 15 s.data = true → (normalizeSymbols s).isSome) := by
  refine ⟨?_, ?_, ?_, ?_⟩
  · intro l h
    exact numericRefPass_isSome _ _ h
  · intro n h
    rw [numberToWords_matches_reference n h]
    rfl
  · intro s hne hdig hlt
    rw [normalizeNumbers_digit_token s hne hdig]
    exact replaceNumber_isSome s hlt
  · intro s h
    exact normalizeSymbols_isSome s h

theorem stage_totality_boundaries_witness :
    (refsOK (entityPass (stripTags (codesOf "a &#65; <b>x</b> &amp; c").length
        (codesOf "a &#65; <b>x</b> &amp; c"))).length
      (entityPass (stripTags (codesOf "a &#65; <b>x</b> &amp; c").length
        (codesOf "a &#65; <b>x</b> &amp; c"))) = true ∧
      (stripHtml (codesOf "a &#65; <b>x</b> &amp; c")).isSome) ∧
    ((2025 : Int).natAbs < 10 ^ 15 ∧ (numberToWords 2025).isSome) ∧
    (("77" : String).data ≠ [] ∧ (∀ c ∈ ("77" : String).data, isAsciiDigit c = true) ∧
      parseNat ("77" : String).data < 10 ^ 15 ∧ (normalizeNumbers "77").isSome) ∧
    (runBound 15 ("pay $5 and 10% at 9:30 am" : String).data = true ∧
      (normalizeSymbols "pay $5 and 10% at 9:30 am").isSome) :=
  ⟨⟨by decide, stage_totality_boundaries.1 _ (by decide)⟩,
   ⟨by decide, stage_totality_boundaries.2.1 2025 (by decide)⟩,
   ⟨by decide, by decide, by decide,
    stage_totality_boundaries.2.2.1 "77" (by decide) (by decide) (by decide)⟩,
   ⟨by decide, stage_totality_boundaries.2.2.2 _ (by decide)⟩⟩

/-- C1 (counterexample): `strip_html` raises on a numeric character
reference just past the Unicode range; `normalize_numbers` raises
(IndexError past the trillion scale) on a 10^15 integer token; and
`normalize_symbols` raises the same IndexError on a currency amount and
on a percentage of 10^15 — the stages are not total. -/
theorem stage_totality_counterexample :
    stripHtml (codesOf "&#1114112;") = none ∧
    normalizeNumbers "1000000000000000" = none ∧
    normalizeSymbols "$1000000000000000" = none ∧
    normalizeSymbols "1000000000000000%" = none := by
  refine ⟨?_, ?_, ?_, ?_⟩
  · rfl
  · rfl
  · rfl
  · rfl

/-! ### Rule 3: `remove_dangerous_punctuation` -/

def lbrace : Char := Char.ofNat 123
def rbrace : Char := Char.ofNat 125

/-- The four `str.replace(_, '')` calls deleting braces and angle
brackets (removals of distinct single characters, so one filter). -/
def removeBraceAngle (l : List Char) : List Char :=
  l.filter (fun c => !(c == lbrace || c == rbrace || c == '<' || c == '>'))

/-- `re.sub(r'\[([^\]]*)\]', r'\1', text)`: each `[`, a (possibly
empty) run of non-`]` characters, and the next `]` is replaced by the
enclosed run, scanning left to right. -/
def removeSq : Nat → List Char → List Char
  | 0, l => l
  | _ + 1, [] => []
  | fuel + 1, c :: rest =>
    if c = '[' && rest.contains ']' then
      rest.takeWhile (fun d => !(d == ']')) ++
        removeSq fuel ((rest.dropWhile (fun d => !(d == ']'))).tail)
    else c :: removeSq fuel rest

/-- `remove_dangerous_punctuation(text)`. -/
def removeDangerousPunctuation (s : String) : String :=
  let t := removeBraceAngle s.data
  ⟨removeSq t.length t⟩

/-- The square brackets of a text are simple: every `[` is closed by a
following `]` with no `[` in between, and no stray `]` occurs. -/
def simpleBrackets : Nat → List Char → Bool
  | 0, _ => true
  | _ + 1, [] => true
  | fuel + 1, c :: rest =>
    if c = '[' then
      rest.contains ']' &&
        !((rest.takeWhile (fun d => !(d == ']'))).contains '[') &&
        simpleBrackets fuel ((rest.dropWhile (fun d => !(d == ']'))).tail)
    else !(c == ']') && simpleBrackets fuel rest

theorem removeSq_subset : ∀ (fuel : Nat) (l : List Char) (c : Char),
    c ∈ removeSq fuel l → c ∈ l := by
  intro fuel
  induction fuel with
  | zero => intro l c h; exact h
  | succ fuel ih =>
    intro l c h
    cases l with
    | nil => exact h
    | cons a rest =>
      rw [removeSq] at h
      by_cases hcond : (a = '[' && rest.contains ']') = true
      · rw [if_pos hcond] at h
        rcases List.mem_append.mp h with h2 | h2
        · exact List.mem_cons_of_mem a (List.takeWhile_subset _ h2)
        · have h3 := ih _ c h2
          have h4 : c ∈ rest.dropWhile (fun d => !(d == ']')) :=
            List.tail_subset _ h3
          exact List.mem_cons_of_mem a
            ((List.dropWhile_suffix (fun d => !(d == ']'))).subset h4)
      · rw [if_neg hcond] at h
        rcases List.mem_cons.mp h with h2 | h2
        · simp [h2]
        · exact List.mem_cons_of_mem a (ih rest c h2)

theorem removeSq_no_brackets : ∀ (fuel : Nat) (l : List Char),
    l.length ≤ fuel → simpleBrackets fuel l = true →
    ∀ c ∈ removeSq fuel l, c ≠ '[' ∧ c ≠ ']' := by
  intro fuel
  induction fuel with
  | zero =>
    intro l hlen _ c hc
    have : l = [] := List.length_eq_zero.mp (by omega)
    subst this
    exact absurd hc (by simp [removeSq])
  | succ fuel ih =>
    intro l hlen hsb c hc
    cases l with
    | nil => exact absurd hc (by simp [removeSq])
    | cons a rest =>
      rw [removeSq] at hc
      rw [simpleBrackets] at hsb
      by_cases ha : a = '['
      · rw [if_pos ha] at hsb
        rcases Bool.and_eq_true_iff.mp hsb with ⟨h1, hrec⟩
        rcases Bool.and_eq_true_iff.mp h1 with ⟨hcont, hnolb⟩
        rw [if_pos (by simp [ha]; simpa using hcont)] at hc
        have hlen2 : ((rest.dropWhile (fun d => !(d == ']'))).tail).length ≤ fuel := by
          have hsuf := (List.dropWhile_suffix (l := rest)
            (fun d : Char => !(d == ']'))).length_le
          have := List.length_tail (rest.dropWhile (fun d => !(d == ']')))
          simp at hlen
          omega
        rcases List.mem_append.mp hc with h2 | h2
        · constructor
          · intro he
            subst he
            simp at hnolb
            exact absurd h2 (by simpa using hnolb)
          · intro he
            subst he
            have := List.mem_takeWhile_imp h2
            simp at this
        · exact ih _ hlen2 hrec c h2
      · rw [if_neg ha] at hsb
        rcases Bool.and_eq_true_iff.mp hsb with ⟨hne, hrec⟩
        rw [if_neg (by simp [ha])] at hc
        rcases List.mem_cons.mp hc with h2 | h2
        · subst h2
          refine ⟨ha, ?_⟩
          simpa using hne
        · have hlen2 : rest.length ≤ fuel := by
            simp at hlen
            omega
          exact ih rest hlen2 hrec c h2

/-- C5 (amended): the output of `remove_dangerous_punctuation` never
contains a brace or angle bracket; and whenever the square brackets of
the input (after brace/angle deletion) are simple — each `[` closed by
a following `]` with no `[` between, and no stray `]` — the output
contains no square bracket either, the enclosed content being retained.
Unmatched or nested brackets survive the single regex pass. -/
theorem dangerous_punctuation_removal (s : String) :
    (∀ c ∈ (removeDangerousPunctuation s).data,
      c ≠ lbrace ∧ c ≠ rbrace ∧ c ≠ '<' ∧ c ≠ '>') ∧
    (simpleBrackets (removeBraceAngle s.data).length (removeBraceAngle s.data) =
        true →
      ∀ c ∈ (removeDangerousPunctuation s).data, c ≠ '[' ∧ c ≠ ']') := by
  constructor
  · intro c hc
    have h1 : c ∈ removeBraceAngle s.data :=
      removeSq_subset _ _ c hc
    have h2 := List.of_mem_filter h1
    simp at h2
    exact ⟨h2.1.1.1, h2.1.1.2, h2.1.2, h2.2⟩
  · intro hsb c hc
    exact removeSq_no_brackets _ _ (le_refl _) hsb c hc

theorem dangerous_punctuation_removal_witness :
    (∀ c ∈ (removeDangerousPunctuation "on [sale] now").data,
      c ≠ lbrace ∧ c ≠ rbrace ∧ c ≠ '<' ∧ c ≠ '>') ∧
    (simpleBrackets (removeBraceAngle ("on [sale] now" : String).data).length
        (removeBraceAngle ("on [sale] now" : String).data) = true) ∧
    (∀ c ∈ (removeDangerousPunctuation "on [sale] now").data,
      c ≠ '[' ∧ c ≠ ']') :=
  ⟨(dangerous_punctuation_removal "on [sale] now").1, by decide,
   (dangerous_punctuation_removal "on [sale] now").2 (by decide)⟩

/-- C5 (counterexample): an unmatched `[` survives the pass, so the
output can contain a square bracket. -/
theorem dangerous_punctuation_counterexample :
    removeDangerousPunctuation "[" = "[" ∧
    '[' ∈ (removeDangerousPunctuation "[").data ∧
    removeDangerousPunctuation "[[a]]" = "[a]" := by
  refine ⟨?_, ?_, ?_⟩ <;> decide

/-! ### Rule 9: `_list_to_prose` -/

def LIST_ORDINALS : List String :=
  ["Firstly", "Secondly", "Thirdly", "Fourthly", "Fifthly",
   "Sixthly", "Seventhly", "Eighthly", "Ninthly", "Tenthly"]

/-- `str.lower()` at ASCII granularity. -/
def lowerStr (s : String) : String := ⟨s.data.map lowerCh⟩

/-- The per-item expression of `_list_to_prose`:
`item.lower() if item[0].isupper() and not item[1:2].isupper() else item`.
Indexing `item[0]` on an empty item raises IndexError, modelled as
`none`. -/
def proseItem (item : String) : Option String :=
  match item.data with
  | [] => none
  | c0 :: rest =>
    some (if isUpperCh c0 && !(rest.head?.any isUpperCh) then lowerStr item
          else item)

/-- The `enumerate` loop of the multi-item branch of `_list_to_prose`;
`i` is the running index, the connector falls back to `"Additionally"`
past the ten ordinal words. -/
def prosePartsAux : Nat → List String → Option (List String)
  | _, [] => some []
  | i, item :: rest => do
    let t ← proseItem item
    let tail ← prosePartsAux (i + 1) rest
    pure ((LIST_ORDINALS.getD i "Additionally" ++ ", " ++ t) :: tail)

/-- `_list_to_prose(items)`. -/
def listToProse (items : List String) : Option String :=
  if items.length = 1 then some (items.headD "")
  else do
    let parts ← prosePartsAux 0 items
    pure (joinSp parts)

/-! Reference prose conversion, modelled from the words of the amended
claim (whole-item lower-casing). -/

def refConn : Nat → String
  | 0 => "Firstly" | 1 => "Secondly" | 2 => "Thirdly" | 3 => "Fourthly"
  | 4 => "Fifthly" | 5 => "Sixthly" | 6 => "Seventhly" | 7 => "Eighthly"
  | 8 => "Ninthly" | 9 => "Tenthly"
  | _ => "Additionally"

/-- Reference per-item transformation: the whole item is lower-cased
exactly when its first character is uppercase and its second character
is not. -/
def refProseItem (item : String) : String :=
  match item.data with
  | [] => item
  | c0 :: rest =>
    if isUpperCh c0 && !(rest.head?.any isUpperCh) then lowerStr item else item

def refProseParts : Nat → List String → List String
  | _, [] => []
  | i, item :: rest =>
    (refConn i ++ ", " ++ refProseItem item) :: refProseParts (i + 1) rest

theorem getD_ordinals (i : Nat) :
    LIST_ORDINALS[i]?.getD "Additionally" = refConn i := by
  by_cases h : i < 10
  · interval_cases i <;> rfl
  · have hlen : LIST_ORDINALS.length ≤ i := by
      simp [LIST_ORDINALS]
      omega
    rw [List.getElem?_eq_none hlen]
    have h10 : 10 ≤ i := by omega
    rcases Nat.exists_eq_add_of_le h10 with ⟨k, hk⟩
    subst hk
    rw [Nat.add_comm]
    rfl

theorem prosePartsAux_eq (items : List String) (hne : ∀ x ∈ items, x ≠ "") :
    ∀ i : Nat, prosePartsAux i items = some (refProseParts i items) := by
  induction items with
  | nil => intro i; rfl
  | cons item rest ih =>
    intro i
    have hitem : proseItem item = some (refProseItem item) := by
      have := hne item (by simp)
      rw [string_ne_empty_iff_data] at this
      cases hd : item.data with
      | nil => exact absurd hd this
      | cons c0 r =>
        rw [proseItem, refProseItem, hd]
    rw [prosePartsAux, hitem, ih (fun x hx => hne x (by simp [hx])) (i + 1)]
    simp [getD_ordinals, refProseParts]

/-- C6 (amended): a multi-item block is rendered by prefixing each item
with its ordinal connector ("Firstly," … "Tenthly,", then
"Additionally,"), joined with single spaces; the WHOLE item is
lower-cased (not only its leading word) exactly when the item's first
character is uppercase and the following character is not; a single-item
block is emitted verbatim. -/
theorem list_to_prose_amended (items : List String)
    (hne : ∀ x ∈ items, x ≠ "") (hlen : 2 ≤ items.length) :
    listToProse items = some (joinSp (refProseParts 0 items)) ∧
    (∀ x : String, listToProse [x] = some x) := by
  constructor
  · rw [listToProse, if_neg (by omega), prosePartsAux_eq items hne 0]
    rfl
  · intro x
    rfl

theorem list_to_prose_amended_witness :
    (∀ x ∈ (["Buy Apples", "sell Pears", "Trade"] : List String), x ≠ "") ∧
    2 ≤ (["Buy Apples", "sell Pears", "Trade"] : List String).length ∧
    listToProse ["Buy Apples", "sell Pears", "Trade"] =
      some (joinSp (refProseParts 0 ["Buy Apples", "sell Pears", "Trade"])) :=
  ⟨by decide, by decide,
   (list_to_prose_amended ["Buy Apples", "sell Pears", "Trade"]
     (by decide) (by decide)).1⟩

/-- C6 (counterexample): the code lower-cases the whole item, not only
its leading word: on the block `["Aa Bb", "Cc"]` it produces
`"Firstly, aa bb Secondly, cc"`, not the claim's
`"Firstly, aa Bb Secondly, cc"`. -/
theorem list_to_prose_counterexample :
    listToProse ["Aa Bb", "Cc"] = some "Firstly, aa bb Secondly, cc" ∧
    listToProse ["Aa Bb", "Cc"] ≠ some "Firstly, aa Bb Secondly, cc" := by
  constructor
  · decide
  · decide

/-! ### Rule 8: `normalize_acronyms` -/

/-- The letter-acronym set of the source, in source listing order (a
Python set literal has no specified iteration order; the replacements
are observably order-independent on whole-word tokens, and this model
fixes the listing order). -/
def LETTER_ACRONYMS : List String :=
  ["FBI", "CIA", "NSA", "USA", "UK", "EU", "UN", "NATO", "CEO", "CFO",
   "CTO", "AI", "ML", "API", "CPU", "GPU", "RAM", "ROM", "USB", "HTML",
   "CSS", "URL", "PDF", "FAQ", "DIY", "VP", "HR", "IT", "PR", "QA",
   "R&D", "ROI", "GDP", "GPA", "IQ", "EQ", "PhD", "MBA", "BA", "BS",
   "MS", "MD", "JD", "ASAP", "FYI", "BTW", "IMO", "TBD", "TBA", "ETA",
   "RSVP", "GPS", "ATM", "PIN", "ID", "VIP", "PS", "TV", "DVD", "CD",
   "LLM", "NLP", "GPT", "CNN", "RNN", "SaaS", "IoT", "VR", "AR"]

/-- The expansion table of the source, in dict order. -/
def EXPANDED_ACRONYMS : List (String × String) :=
  [("etc", "et cetera"), ("vs", "versus"), ("ie", "that is"),
   ("i.e", "that is"), ("eg", "for example"), ("e.g", "for example"),
   ("approx", "approximately"), ("govt", "government"),
   ("dept", "department"), ("inc", "incorporated"),
   ("corp", "corporation"), ("ltd", "limited"), ("assn", "association"),
   ("intl", "international")]

/-- ASCII upper-casing of one character (`str.upper`). -/
def upperCh (c : Char) : Char :=
  if isLowerCh c then Char.ofNat (c.toNat - 32) else c

def upperStr (s : String) : String := ⟨s.data.map upperCh⟩

/-- `' '.join(acronym.upper())`: the spaced upper-case letters. -/
def spacedOf (a : String) : String :=
  joinSp (a.data.map (fun c => (⟨[upperCh c]⟩ : String)))

/-- One pass of `re.sub(rf'\b{pat}', rep, text, flags=re.IGNORECASE)`
for a literal pattern (used with a trailing literal `'.'` appended, as
in the first expansion substitution, which has no trailing `\b`). -/
def subTokenCIDot (p : Char) (ps rep : List Char) :
    Nat → Option Char → List Char → List Char
  | 0, _, l => l
  | _ + 1, _, [] => []
  | fuel + 1, prev, c :: rest =>
    if !isWordOpt prev && matchCI (p :: ps) (c :: rest) then
      rep ++ subTokenCIDot p ps rep fuel (some ((c :: rest).getD ps.length c))
        (rest.drop ps.length)
    else
      c :: subTokenCIDot p ps rep fuel (some c) rest

/-- One entry of the expansion loop: the period-consuming substitution
followed by the word-bounded substitution. -/
def expansionStep (l : List Char) (pr : String × String) : List Char :=
  let l1 :=
    match pr.1.data ++ ['.'] with
    | [] => l
    | p :: ps => subTokenCIDot p ps pr.2.data l.length none l
  match pr.1.data with
  | [] => l1
  | p :: ps => subTokenCI p ps pr.2.data l1.length none l1

/-- `normalize_acronyms(text)`: expansions first, then letter
spelling. -/
def normalizeAcronyms (s : String) : String :=
  let e := EXPANDED_ACRONYMS.foldl expansionStep s.data
  ⟨LETTER_ACRONYMS.foldl
    (fun acc a =>
      match a.data with
      | [] => acc
      | p :: ps => subTokenCI p ps (spacedOf a).data acc.length none acc)
    e⟩

set_option maxRecDepth 100000 in
set_option maxHeartbeats 4000000 in
/-- C7: every known letter-acronym, as a whole-word token in its source
case, all-lower case (including the 2-letter collisions "it" and "id"),
or all-upper case, is rewritten by `normalize_acronyms` (after the
expansion pass has run over the same text) to its upper-case letters
joined by single spaces. -/
theorem acronym_letter_spelling :
    ∀ a ∈ LETTER_ACRONYMS,
      normalizeAcronyms a = spacedOf a ∧
      normalizeAcronyms (lowerStr a) = spacedOf a ∧
      normalizeAcronyms (upperStr a) = spacedOf a := by
  decide

theorem acronym_letter_spelling_witness :
    ("API" : String) ∈ LETTER_ACRONYMS ∧
    (normalizeAcronyms "API" = spacedOf "API" ∧
      normalizeAcronyms (lowerStr "API") = spacedOf "API" ∧
      normalizeAcronyms (upperStr "API") = spacedOf "API") ∧
    ("IT" : String) ∈ LETTER_ACRONYMS ∧
    normalizeAcronyms (lowerStr "IT") = spacedOf "IT" :=
  ⟨by decide, acronym_letter_spelling "API" (by decide), by decide,
   (acronym_letter_spelling "IT" (by decide)).2.1⟩

/-! ### Rule 2: `normalize_whitespace` -/

/-- Horizontal whitespace: whitespace other than newline (the class
`[^\S\n]`). -/
def isHWS (c : Char) : Bool := isPySpace c && !(c == '\n')

/-- `text.replace('\r\n', '\n').replace('\r', '\n')`: both the pair and
the lone carriage return become one newline (the two sequential global
replaces land on exactly this). -/
def fixNewlines : List Char → List Char
  | [] => []
  | [c] => [if c = '\r' then '\n' else c]
  | c :: d :: rest =>
    if c = '\r' then
      if d = '\n' then '\n' :: fixNewlines rest
      else '\n' :: fixNewlines (d :: rest)
    else c :: fixNewlines (d :: rest)

/-- `text.replace('\t', ' ')`. -/
def detab (l : List Char) : List Char :=
  l.map (fun c => if c = '\t' then ' ' else c)

/-- `re.sub(r'[^\S\n]+', ' ', text)`: each maximal run of horizontal
whitespace becomes one space. -/
def collapseHWS : Nat → List Char → List Char
  | 0, l => l
  | _ + 1, [] => []
  | fuel + 1, c :: rest =>
    if isHWS c then ' ' :: collapseHWS fuel (rest.dropWhile isHWS)
    else c :: collapseHWS fuel rest

/-- `text.split('\n')`. -/
def splitNL : List Char → List (List Char)
  | [] => [[]]
  | c :: rest =>
    match splitNL rest with
    | [] => [[c]]
    | h :: t => if c = '\n' then [] :: h :: t else (c :: h) :: t

/-- `'\n'.join(lines)`. -/
def joinNL : List (List Char) → List Char
  | [] => []
  | [l] => l
  | l :: rest => l ++ '\n' :: joinNL rest

/-- `re.sub(r'\n{3,}', '\n\n', text)`: a run of three or more newlines
becomes exactly two. -/
def collapseNLs : Nat → List Char → List Char
  | 0, l => l
  | _ + 1, [] => []
  | fuel + 1, c :: rest =>
    if c = '\n' && rest.head? == some '\n' && rest.tail.head? == some '\n' then
      '\n' :: '\n' :: collapseNLs fuel (rest.dropWhile (fun d => d == '\n'))
    else c :: collapseNLs fuel rest

/-- `normalize_whitespace(text)`. -/
def normalizeWhitespace (s : String) : String :=
  let a := detab (fixNewlines s.data)
  let b := collapseHWS a.length a
  let u := joinNL ((splitNL b).map pyStripL)
  let z := collapseNLs u.length u
  ⟨pyStripL z⟩

/-! #### The canonical form of `normalize_whitespace` output -/

/-- No three consecutive newlines. -/
def nlOK : List Char → Bool
  | [] => true
  | c :: rest =>
    !(c = '\n' && rest.head? == some '\n' && rest.tail.head? == some '\n') &&
      nlOK rest

/-- No two adjacent horizontal-whitespace characters. -/
def RnoAdj (a b : Char) : Prop := ¬(isHWS a = true ∧ isHWS b = true)

/-- No horizontal whitespace adjacent to a newline (each line is
stripped at the side of every newline). -/
def RnlEdge (a b : Char) : Prop :=
  ¬(a = '\n' ∧ isHWS b = true) ∧ ¬(isHWS a = true ∧ b = '\n')

/-- The canonical form: the invariants that make every stage of
`normalize_whitespace` the identity. -/
def wsCanonical (l : List Char) : Prop :=
  (∀ c ∈ l, isHWS c = true → c = ' ') ∧
  List.Chain' RnoAdj l ∧
  List.Chain' RnlEdge l ∧
  nlOK l = true ∧
  (∀ c, l.head? = some c → isPySpace c = false) ∧
  (∀ c, l.getLast? = some c → isPySpace c = false)

/-! #### Structural lemmas about line splitting and joining -/

theorem splitNL_ne_nil (l : List Char) : splitNL l ≠ [] := by
  cases l with
  | nil => simp [splitNL]
  | cons c rest =>
    rw [splitNL]
    cases splitNL rest with
    | nil => simp
    | cons h t => by_cases hc : c = '\n' <;> simp [hc]

theorem splitNL_cons_eq (c : Char) (rest : List Char) (h : List Char)
    (t : List (List Char)) (hsp : splitNL rest = h :: t) :
    splitNL (c :: rest) = if c = '\n' then [] :: h :: t else (c :: h) :: t := by
  rw [splitNL, hsp]

theorem splitNL_no_nl : ∀ (l : List Char), ∀ ln ∈ splitNL l, '\n' ∉ ln := by
  intro l
  induction l with
  | nil =>
    intro ln hln
    simp [splitNL] at hln
    subst hln
    simp
  | cons c rest ih =>
    intro ln hln
    cases hsp : splitNL rest with
    | nil => exact absurd hsp (splitNL_ne_nil rest)
    | cons h t =>
      rw [splitNL_cons_eq c rest h t hsp] at hln
      by_cases hc : c = '\n'
      · rw [if_pos hc] at hln
        rcases List.mem_cons.mp hln with h1 | h1
        · subst h1; simp
        · exact ih ln (by rw [hsp]; exact h1)
      · rw [if_neg hc] at hln
        rcases List.mem_cons.mp hln with h1 | h1
        · subst h1
          intro hmem
          rcases List.mem_cons.mp hmem with h2 | h2
          · exact hc h2.symm
          · exact ih h (by rw [hsp]; simp) h2
        · exact ih ln (by rw [hsp]; simp [h1])

theorem joinNL_cons_head (c : Char) (h : List Char) (t : List (List Char)) :
    joinNL ((c :: h) :: t) = c :: joinNL (h :: t) := by
  cases t <;> rfl

theorem joinNL_splitNL : ∀ (l : List Char), joinNL (splitNL l) = l := by
  intro l
  induction l with
  | nil => rfl
  | cons c rest ih =>
    cases hsp : splitNL rest with
    | nil => exact absurd hsp (splitNL_ne_nil rest)
    | cons h t =>
      rw [splitNL_cons_eq c rest h t hsp]
      by_cases hc : c = '\n'
      · rw [if_pos hc]
        subst hc
        have h2 : joinNL ([] :: h :: t) = '\n' :: joinNL (h :: t) := rfl
        rw [h2, ← hsp, ih]
      · rw [if_neg hc, joinNL_cons_head, ← hsp, ih]

theorem splitNL_singleton (ln : List Char) (h : '\n' ∉ ln) :
    splitNL ln = [ln] := by
  induction ln with
  | nil => rfl
  | cons c r ih =>
    rw [splitNL_cons_eq c r r [] (ih (fun hm => h (by simp [hm])))]
    rw [if_neg (fun hc => h (by simp [hc]))]

theorem splitNL_append_nl (ln m : List Char) (h : '\n' ∉ ln) :
    splitNL (ln ++ '\n' :: m) = ln :: splitNL m := by
  induction ln with
  | nil =>
    rw [List.nil_append]
    cases hsp : splitNL m with
    | nil => exact absurd hsp (splitNL_ne_nil m)
    | cons a t =>
      rw [splitNL_cons_eq '\n' m a t hsp, if_pos rfl]
  | cons c ln' ih =>
    have hc : c ≠ '\n' := fun hc => h (by simp [hc])
    rw [List.cons_append,
      splitNL_cons_eq c (ln' ++ '\n' :: m) ln' (splitNL m)
        (ih (fun hm => h (by simp [hm]))),
      if_neg hc]

theorem splitNL_joinNL : ∀ (L : List (List Char)), L ≠ [] →
    (∀ ln ∈ L, '\n' ∉ ln) → splitNL (joinNL L) = L := by
  intro L
  induction L with
  | nil => intro h; exact absurd rfl h
  | cons ln L' ih =>
    intro _ hnl
    cases L' with
    | nil => exact splitNL_singleton ln (hnl ln (by simp))
    | cons m L'' =>
      have : joinNL (ln :: m :: L'') = ln ++ '\n' :: joinNL (m :: L'') := rfl
      rw [this, splitNL_append_nl ln _ (hnl ln (by simp)),
        ih (by simp) (fun x hx => hnl x (by simp [hx]))]

/-! #### Head preservation and membership lemmas for the stages -/

theorem collapseNLs_head? (fuel : Nat) (l : List Char) :
    (collapseNLs fuel l).head? = l.head? := by
  cases fuel with
  | zero => rfl
  | succ f =>
    cases l with
    | nil => rfl
    | cons c rest =>
      rw [collapseNLs]
      by_cases hcond : (c = '\n' && rest.head? == some '\n' &&
          rest.tail.head? == some '\n') = true
      · rw [if_pos hcond]
        simp at hcond
        simp [hcond.1.1]
      · rw [if_neg hcond]
        rfl

theorem collapseHWS_head?_of_not_hws (fuel : Nat) (m : List Char)
    (h : ∀ x, m.head? = some x → isHWS x = false) :
    (collapseHWS fuel m).head? = m.head? := by
  cases fuel with
  | zero => rfl
  | succ f =>
    cases m with
    | nil => rfl
    | cons c rest =>
      rw [collapseHWS, if_neg (by simp [h c rfl])]
      rfl

theorem mem_collapseHWS : ∀ (fuel : Nat) (l : List Char) (c : Char),
    c ∈ collapseHWS fuel l → c = ' ' ∨ c ∈ l := by
  intro fuel
  induction fuel with
  | zero => intro l c h; exact Or.inr h
  | succ f ih =>
    intro l c h
    cases l with
    | nil => exact Or.inr h
    | cons a rest =>
      rw [collapseHWS] at h
      by_cases ha : isHWS a = true
      · rw [if_pos ha] at h
        rcases List.mem_cons.mp h with h1 | h1
        · exact Or.inl h1
        · rcases ih _ c h1 with h2 | h2
          · exact Or.inl h2
          · exact Or.inr (List.mem_cons_of_mem a
              ((List.dropWhile_suffix isHWS).subset h2))
      · rw [if_neg ha] at h
        rcases List.mem_cons.mp h with h1 | h1
        · exact Or.inr (by simp [h1])
        · rcases ih _ c h1 with h2 | h2
          · exact Or.inl h2
          · exact Or.inr (List.mem_cons_of_mem a h2)

theorem mem_collapseNLs : ∀ (fuel : Nat) (l : List Char) (c : Char),
    c ∈ collapseNLs fuel l → c = '\n' ∨ c ∈ l := by
  intro fuel
  induction fuel with
  | zero => intro l c h; exact Or.inr h
  | succ f ih =>
    intro l c h
    cases l with
    | nil => exact Or.inr h
    | cons a rest =>
      rw [collapseNLs] at h
      by_cases hcond : (a = '\n' && rest.head? == some '\n' &&
          rest.tail.head? == some '\n') = true
      · rw [if_pos hcond] at h
        rcases List.mem_cons.mp h with h1 | h1
        · exact Or.inl h1
        · rcases List.mem_cons.mp h1 with h2 | h2
          · exact Or.inl h2
          · rcases ih _ c h2 with h3 | h3
            · exact Or.inl h3
            · exact Or.inr (List.mem_cons_of_mem a
                ((List.dropWhile_suffix (fun d => d == '\n')).subset h3))
      · rw [if_neg hcond] at h
        rcases List.mem_cons.mp h with h1 | h1
        · exact Or.inr (by simp [h1])
        · rcases ih _ c h1 with h2 | h2
          · exact Or.inl h2
          · exact Or.inr (List.mem_cons_of_mem a h2)

theorem mem_joinNL : ∀ (L : List (List Char)) (c : Char),
    c ∈ joinNL L → c = '\n' ∨ ∃ ln ∈ L, c ∈ ln := by
  intro L
  induction L with
  | nil => intro c h; simp [joinNL] at h
  | cons ln L' ih =>
    intro c h
    cases L' with
    | nil => exact Or.inr ⟨ln, by simp, h⟩
    | cons m L'' =>
      have : joinNL (ln :: m :: L'') = ln ++ '\n' :: joinNL (m :: L'') := rfl
      rw [this] at h
      rcases List.mem_append.mp h with h1 | h1
      · exact Or.inr ⟨ln, by simp, h1⟩
      · rcases List.mem_cons.mp h1 with h2 | h2
        · exact Or.inl h2
        · rcases ih c h2 with h3 | h3
          · exact Or.inl h3
          · obtain ⟨x, hx1, hx2⟩ := h3
            exact Or.inr ⟨x, by simp [hx1], hx2⟩

theorem mem_of_mem_splitNL : ∀ (l : List Char) (ln : List Char),
    ln ∈ splitNL l → ∀ c ∈ ln, c ∈ l := by
  intro l
  induction l with
  | nil =>
    intro ln hln c hc
    simp [splitNL] at hln
    subst hln
    simp at hc
  | cons a rest ih =>
    intro ln hln c hc
    cases hsp : splitNL rest with
    | nil => exact absurd hsp (splitNL_ne_nil rest)
    | cons h t =>
      rw [splitNL_cons_eq a rest h t hsp] at hln
      by_cases ha : a = '\n'
      · rw [if_pos ha] at hln
        rcases List.mem_cons.mp hln with h1 | h1
        · subst h1; simp at hc
        · exact List.mem_cons_of_mem a (ih ln (by rw [hsp]; exact h1) c hc)
      · rw [if_neg ha] at hln
        rcases List.mem_cons.mp hln with h1 | h1
        · subst h1
          rcases List.mem_cons.mp hc with h2 | h2
          · simp [h2]
          · exact List.mem_cons_of_mem a
              (ih h (by rw [hsp]; simp) c h2)
        · exact List.mem_cons_of_mem a
            (ih ln (by rw [hsp]; simp [h1]) c hc)

theorem mem_pyStripL (l : List Char) (c : Char) (h : c ∈ pyStripL l) :
    c ∈ l := by
  unfold pyStripL at h
  rw [List.mem_reverse] at h
  have h2 := (List.dropWhile_suffix isPySpace).subset h
  rw [List.mem_reverse] at h2
  exact (List.dropWhile_suffix isPySpace).subset h2

theorem mem_detab (l : List Char) (c : Char) (h : c ∈ detab l) :
    c = ' ' ∨ c ∈ l := by
  unfold detab at h
  rw [List.mem_map] at h
  obtain ⟨a, ha, he⟩ := h
  by_cases hat : a = '\t'
  · simp [hat] at he
    exact Or.inl he.symm
  · simp [hat] at he
    subst he
    exact Or.inr ha

theorem mem_fixNewlines : ∀ (l : List Char) (c : Char),
    c ∈ fixNewlines l → c = '\n' ∨ c ∈ l := by
  intro l
  induction l using fixNewlines.induct with
  | case1 =>
    intro c h
    simp [fixNewlines] at h
  | case2 a =>
    intro c h
    simp [fixNewlines] at h
    by_cases ha : a = '\r'
    · simp [ha] at h
      exact Or.inl h
    · simp [ha] at h
      exact Or.inr (by simp [h])
  | case3 rest ih =>
    intro c h
    rw [fixNewlines, if_pos rfl, if_pos rfl] at h
    rcases List.mem_cons.mp h with h1 | h1
    · exact Or.inl h1
    · rcases ih c h1 with h2 | h2
      · exact Or.inl h2
      · exact Or.inr (by simp [h2])
  | case4 d rest hd ih =>
    intro c h
    rw [fixNewlines, if_pos rfl, if_neg hd] at h
    rcases List.mem_cons.mp h with h1 | h1
    · exact Or.inl h1
    · rcases ih c h1 with h2 | h2
      · exact Or.inl h2
      · exact Or.inr (by simp [h2])
  | case5 a d rest ha ih =>
    intro c h
    rw [fixNewlines, if_neg ha] at h
    rcases List.mem_cons.mp h with h1 | h1
    · exact Or.inr (by simp [h1])
    · rcases ih c h1 with h2 | h2
      · exact Or.inl h2
      · exact Or.inr (by simp [h2])

/-! #### Identity of each stage on canonical text -/

theorem fixNewlines_id : ∀ (l : List Char), (∀ c ∈ l, c ≠ '\r') →
    fixNewlines l = l := by
  intro l
  induction l using fixNewlines.induct with
  | case1 => intro _; rfl
  | case2 a =>
    intro h
    simp [fixNewlines, h a (by simp)]
  | case3 rest ih =>
    intro h
    exact absurd rfl (h '\r' (by simp))
  | case4 d rest hd ih =>
    intro h
    exact absurd rfl (h '\r' (by simp))
  | case5 a d rest ha ih =>
    intro h
    rw [fixNewlines, if_neg ha, ih (fun x hx => h x (by simp [hx]))]

theorem detab_id : ∀ (l : List Char), (∀ c ∈ l, c ≠ '\t') → detab l = l := by
  intro l
  induction l with
  | nil => intro _; rfl
  | cons c rest ih =>
    intro h
    show (if c = '\t' then ' ' else c) :: detab rest = c :: rest
    rw [if_neg (h c (by simp)), ih (fun x hx => h x (by simp [hx]))]

theorem collapseHWS_id : ∀ (fuel : Nat) (l : List Char), l.length ≤ fuel →
    (∀ c ∈ l, isHWS c = true → c = ' ') → List.Chain' RnoAdj l →
    collapseHWS fuel l = l := by
  intro fuel
  induction fuel with
  | zero =>
    intro l hl _ _
    have : l = [] := List.length_eq_zero.mp (by omega)
    subst this
    rfl
  | succ f ih =>
    intro l hl hsp hch
    cases l with
    | nil => rfl
    | cons c rest =>
      have hrest : collapseHWS f rest = rest :=
        ih rest (by simp at hl; omega)
          (fun x hx hxs => hsp x (by simp [hx]) hxs) (List.Chain'.tail hch)
      rw [collapseHWS]
      by_cases hc : isHWS c = true
      · rw [if_pos hc]
        have hc' : c = ' ' := hsp c (by simp) hc
        have hdrop : rest.dropWhile isHWS = rest := by
          cases rest with
          | nil => rfl
          | cons d rest' =>
            have hpair : RnoAdj c d := (List.chain'_cons'.mp hch).1 d rfl
            have hd : isHWS d = false := by
              by_contra hdd
              exact hpair ⟨hc, by simpa using hdd⟩
            rw [List.dropWhile_cons, hd]
            simp
        rw [hdrop, hc', hrest]
      · rw [if_neg hc, hrest]

/-- Utility: conversion between the whitespace classes away from
newline. -/
theorem isHWS_of_pySpace {c : Char} (h1 : isPySpace c = true) (h2 : c ≠ '\n') :
    isHWS c = true := by
  simp [isHWS, h1, h2]

theorem pySpace_of_isHWS {c : Char} (h : isHWS c = true) : isPySpace c = true := by
  simp [isHWS] at h
  exact h.1

def lineLeadOK (ln : List Char) : Prop :=
  ∀ c, ln.head? = some c → isHWS c = false

def lineTrailOK (ln : List Char) : Prop :=
  ∀ c, ln.getLast? = some c → isHWS c = false

theorem firstLine_leadOK (l : List Char)
    (h : ∀ x, l.head? = some x → isHWS x = false) :
    lineLeadOK ((splitNL l).headD []) := by
  cases l with
  | nil =>
    intro c hc
    simp [splitNL] at hc
  | cons c rest =>
    cases hsp : splitNL rest with
    | nil => exact absurd hsp (splitNL_ne_nil rest)
    | cons a t =>
      rw [splitNL_cons_eq c rest a t hsp]
      by_cases hc : c = '\n'
      · rw [if_pos hc]
        intro x hx
        simp at hx
      · rw [if_neg hc]
        intro x hx
        simp at hx
        subst hx
        exact h c rfl

theorem splitNL_tail_leadOK : ∀ (l : List Char), List.Chain' RnlEdge l →
    ∀ ln ∈ (splitNL l).tail, lineLeadOK ln := by
  intro l
  induction l with
  | nil =>
    intro _ ln hln
    simp [splitNL] at hln
  | cons c rest ih =>
    intro hch ln hln
    cases hsp : splitNL rest with
    | nil => exact absurd hsp (splitNL_ne_nil rest)
    | cons a t =>
      rw [splitNL_cons_eq c rest a t hsp] at hln
      have hchr : List.Chain' RnlEdge rest := List.Chain'.tail hch
      by_cases hc : c = '\n'
      · rw [if_pos hc] at hln
        simp only [List.tail_cons] at hln
        rcases List.mem_cons.mp hln with h1 | h1
        · subst h1
          have hfl : lineLeadOK ((splitNL rest).headD []) := by
            apply firstLine_leadOK
            intro x hx
            have hpair : RnlEdge c x := by
              refine (List.chain'_cons'.mp hch).1 x ?_
              exact hx
            rcases hpair with ⟨hp1, _⟩
            by_contra hhws
            exact hp1 ⟨hc, by simpa using hhws⟩
          rw [hsp] at hfl
          exact hfl
        · exact ih hchr ln (by rw [hsp]; exact h1)
      · rw [if_neg hc] at hln
        simp only [List.tail_cons] at hln
        exact ih hchr ln (by rw [hsp]; simp [hln])

theorem splitNL_trailOK : ∀ (l : List Char), List.Chain' RnlEdge l →
    (∀ c, l.getLast? = some c → isHWS c = false) →
    ∀ ln ∈ splitNL l, lineTrailOK ln := by
  intro l
  induction l with
  | nil =>
    intro _ _ ln hln
    simp [splitNL] at hln
    subst hln
    intro c hc
    simp at hc
  | cons c rest ih =>
    intro hch hlast ln hln
    have hchr : List.Chain' RnlEdge rest := List.Chain'.tail hch
    cases hsp : splitNL rest with
    | nil => exact absurd hsp (splitNL_ne_nil rest)
    | cons a t =>
      rw [splitNL_cons_eq c rest a t hsp] at hln
      have hlastr : rest ≠ [] → ∀ x, rest.getLast? = some x → isHWS x = false := by
        intro hne x hx
        apply hlast x
        cases rest with
        | nil => exact absurd rfl hne
        | cons d r2 => rw [List.getLast?_cons_cons]; exact hx
      have hrest : ∀ ln2 ∈ splitNL rest, lineTrailOK ln2 := by
        by_cases hr : rest = []
        · subst hr
          intro ln2 hln2
          simp [splitNL] at hln2
          subst hln2
          intro x hx
          simp at hx
        · exact ih hchr (hlastr hr)
      by_cases hc : c = '\n'
      · rw [if_pos hc] at hln
        rcases List.mem_cons.mp hln with h1 | h1
        · subst h1
          intro x hx
          simp at hx
        · exact hrest ln (by rw [hsp]; exact h1)
      · rw [if_neg hc] at hln
        rcases List.mem_cons.mp hln with h1 | h1
        · subst h1
          intro x hx
          cases ha : a with
          | nil =>
            rw [ha] at hx
            simp at hx
            subst hx
            by_cases hr : rest = []
            · apply hlast c
              subst hr
              rfl
            · obtain ⟨d, r2, hdr⟩ := List.exists_cons_of_ne_nil hr
              have hd : d = '\n' := by
                by_contra hdne
                cases hsp2 : splitNL r2 with
                | nil => exact absurd hsp2 (splitNL_ne_nil r2)
                | cons a2 t2 =>
                  rw [hdr, splitNL_cons_eq d r2 a2 t2 hsp2, if_neg hdne,
                    ha] at hsp
                  simp at hsp
              have hpair : RnlEdge c d := by
                refine (List.chain'_cons'.mp hch).1 d ?_
                rw [hdr]
                rfl
              rcases hpair with ⟨_, hp2⟩
              by_contra hhws
              exact hp2 ⟨by simpa using hhws, hd⟩
          | cons y h' =>
            rw [ha, List.getLast?_cons_cons] at hx
            have htr : lineTrailOK a := hrest a (by rw [hsp]; simp)
            apply htr
            rw [ha]
            exact hx
        · exact hrest ln (by rw [hsp]; simp [h1])

theorem mem_of_head?_eq {α : Type} {l : List α} {c : α}
    (h : l.head? = some c) : c ∈ l := by
  cases l with
  | nil => simp at h
  | cons a t =>
    simp at h
    simp [h]

theorem mem_of_getLast?_eq {α : Type} {l : List α} {c : α}
    (h : l.getLast? = some c) : c ∈ l := by
  rw [← List.head?_reverse] at h
  have := mem_of_head?_eq h
  rwa [List.mem_reverse] at this

theorem map_self_of_eq {α : Type} (f : α → α) :
    ∀ (L : List α), (∀ x ∈ L, f x = x) → L.map f = L := by
  intro L
  induction L with
  | nil => intro _; rfl
  | cons a t ih =>
    intro h
    rw [List.map_cons, h a (by simp), ih (fun x hx => h x (by simp [hx]))]

theorem lineStrip_id (l : List Char) (hch : List.Chain' RnlEdge l)
    (hhead : ∀ c, l.head? = some c → isHWS c = false)
    (hlast : ∀ c, l.getLast? = some c → isHWS c = false) :
    (splitNL l).map pyStripL = splitNL l := by
  apply map_self_of_eq
  intro ln hln
  have hnl : '\n' ∉ ln := splitNL_no_nl l ln hln
  have hlead : lineLeadOK ln := by
    cases hsp : splitNL l with
    | nil => exact absurd hsp (splitNL_ne_nil l)
    | cons a t =>
      rw [hsp] at hln
      rcases List.mem_cons.mp hln with h1 | h1
      · subst h1
        have := firstLine_leadOK l hhead
        rw [hsp] at this
        exact this
      · exact splitNL_tail_leadOK l hch ln (by rw [hsp]; exact h1)
  have htrail : lineTrailOK ln := splitNL_trailOK l hch hlast ln hln
  apply pyStripL_eq_self
  · intro c hc
    have hcne : c ≠ '\n' := by
      intro he
      subst he
      exact hnl (by
        cases ln with
        | nil => simp at hc
        | cons x r => simp at hc; simp [hc])
    by_contra hpy
    have : isHWS c = true := isHWS_of_pySpace (by simpa using hpy) hcne
    rw [hlead c hc] at this
    simp at this
  · intro c hc
    have hcne : c ≠ '\n' := by
      intro he
      subst he
      exact hnl (mem_of_getLast?_eq hc)
    by_contra hpy
    have : isHWS c = true := isHWS_of_pySpace (by simpa using hpy) hcne
    rw [htrail c hc] at this
    simp at this

theorem collapseNLs_id : ∀ (fuel : Nat) (l : List Char), nlOK l = true →
    collapseNLs fuel l = l := by
  intro fuel
  induction fuel with
  | zero => intro l _; rfl
  | succ f ih =>
    intro l h
    cases l with
    | nil => rfl
    | cons c rest =>
      rw [nlOK] at h
      rcases Bool.and_eq_true_iff.mp h with ⟨hcond, hrest⟩
      cases hb : (c = '\n' && rest.head? == some '\n' &&
          rest.tail.head? == some '\n') with
      | true => rw [hb] at hcond; simp at hcond
      | false =>
        rw [collapseNLs, if_neg (by rw [hb]; simp), ih rest hrest]

/-! #### `normalize_whitespace` is the identity on canonical text -/

theorem normalizeWhitespace_canonical_id (l : List Char) (h : wsCanonical l) :
    normalizeWhitespace ⟨l⟩ = ⟨l⟩ := by
  obtain ⟨h1, h2, h3, h4, h5, h6⟩ := h
  have hhw : ∀ c, l.head? = some c → isHWS c = false := by
    intro c hc
    cases hb : isHWS c
    · rfl
    · have := pySpace_of_isHWS hb
      rw [h5 c hc] at this
      simp at this
  have hlw : ∀ c, l.getLast? = some c → isHWS c = false := by
    intro c hc
    cases hb : isHWS c
    · rfl
    · have := pySpace_of_isHWS hb
      rw [h6 c hc] at this
      simp at this
  have hnoCR : ∀ c ∈ l, c ≠ '\r' := by
    intro c hc he
    subst he
    have := h1 '\r' hc (by decide)
    exact absurd this (by decide)
  have hnoTab : ∀ c ∈ l, c ≠ '\t' := by
    intro c hc he
    subst he
    have := h1 '\t' hc (by decide)
    exact absurd this (by decide)
  have e1 : detab (fixNewlines l) = l := by
    rw [fixNewlines_id l hnoCR, detab_id l hnoTab]
  show String.mk (pyStripL (collapseNLs
      (joinNL ((splitNL (collapseHWS (detab (fixNewlines l)).length
        (detab (fixNewlines l)))).map pyStripL)).length
      (joinNL ((splitNL (collapseHWS (detab (fixNewlines l)).length
        (detab (fixNewlines l)))).map pyStripL)))) = ⟨l⟩
  rw [e1, collapseHWS_id l.length l (le_refl _) h1 h2,
    lineStrip_id l h3 hhw hlw, joinNL_splitNL l,
    collapseNLs_id l.length l h4]
  exact congrArg String.mk (pyStripL_eq_self h5 h6)

/-! #### Establishment lemmas: the output of each stage -/

theorem collapseHWS_canon : ∀ (fuel : Nat) (l : List Char), l.length ≤ fuel →
    (∀ c ∈ collapseHWS fuel l, isHWS c = true → c = ' ') ∧
    List.Chain' RnoAdj (collapseHWS fuel l) := by
  intro fuel
  induction fuel with
  | zero =>
    intro l hl
    have : l = [] := List.length_eq_zero.mp (by omega)
    subst this
    exact ⟨by intro c hc; simp [collapseHWS] at hc, by simp [collapseHWS]⟩
  | succ f ih =>
    intro l hl
    cases l with
    | nil => exact ⟨by intro c hc; simp [collapseHWS] at hc, by simp [collapseHWS]⟩
    | cons c rest =>
      simp only [List.length_cons] at hl
      rw [collapseHWS]
      by_cases hc : isHWS c = true
      · rw [if_pos hc]
        have hmlen : (rest.dropWhile isHWS).length ≤ f := by
          have := (List.dropWhile_suffix (l := rest) isHWS).length_le
          omega
        obtain ⟨ih1, ih2⟩ := ih (rest.dropWhile isHWS) hmlen
        have hmhead : ∀ x, (rest.dropWhile isHWS).head? = some x →
            isHWS x = false := fun x hx => head?_dropWhile_false hx
        refine ⟨?_, ?_⟩
        · intro x hx hxs
          rcases List.mem_cons.mp hx with h1 | h1
          · exact h1
          · exact ih1 x h1 hxs
        · apply List.chain'_cons'.mpr
          refine ⟨?_, ih2⟩
          intro y hy
          rw [collapseHWS_head?_of_not_hws f _ hmhead] at hy
          intro hpair
          rw [hmhead y hy] at hpair
          simp at hpair
      · rw [if_neg hc]
        obtain ⟨ih1, ih2⟩ := ih rest (by omega)
        refine ⟨?_, ?_⟩
        · intro x hx hxs
          rcases List.mem_cons.mp hx with h1 | h1
          · subst h1
            exact absurd hxs (by simp [hc])
          · exact ih1 x h1 hxs
        · apply List.chain'_cons'.mpr
          refine ⟨?_, ih2⟩
          intro y _ hpair
          exact hc hpair.1

theorem splitNL_head_head (rest h : List Char) (t : List (List Char))
    (hsp : splitNL rest = h :: t) {y : Char} (hy : h.head? = some y) :
    rest.head? = some y := by
  cases rest with
  | nil =>
    simp [splitNL] at hsp
    rw [hsp.1] at hy
    simp at hy
  | cons d r2 =>
    cases hsp2 : splitNL r2 with
    | nil => exact absurd hsp2 (splitNL_ne_nil r2)
    | cons a2 t2 =>
      rw [splitNL_cons_eq d r2 a2 t2 hsp2] at hsp
      by_cases hd : d = '\n'
      · rw [if_pos hd] at hsp
        have : h = [] := by
          have := hsp
          simp at this
          exact this.1
        rw [this] at hy
        simp at hy
      · rw [if_neg hd] at hsp
        have : h = d :: a2 := by
          have := hsp
          simp at this
          exact this.1.symm
        rw [this] at hy
        simp at hy
        simp [hy]

theorem chain'_splitNL_line {R : Char → Char → Prop} :
    ∀ (l : List Char), List.Chain' R l →
    ∀ ln ∈ splitNL l, List.Chain' R ln := by
  intro l
  induction l with
  | nil =>
    intro _ ln hln
    simp [splitNL] at hln
    subst hln
    simp
  | cons c rest ih =>
    intro hch ln hln
    have hchr : List.Chain' R rest := List.Chain'.tail hch
    cases hsp : splitNL rest with
    | nil => exact absurd hsp (splitNL_ne_nil rest)
    | cons h t =>
      rw [splitNL_cons_eq c rest h t hsp] at hln
      by_cases hc : c = '\n'
      · rw [if_pos hc] at hln
        rcases List.mem_cons.mp hln with h1 | h1
        · subst h1; simp
        · exact ih hchr ln (by rw [hsp]; exact h1)
      · rw [if_neg hc] at hln
        rcases List.mem_cons.mp hln with h1 | h1
        · subst h1
          apply List.chain'_cons'.mpr
          refine ⟨?_, ih hchr h (by rw [hsp]; simp)⟩
          intro y hy
          have hry : rest.head? = some y := splitNL_head_head rest h t hsp hy
          exact (List.chain'_cons'.mp hch).1 y hry
        · exact ih hchr ln (by rw [hsp]; simp [h1])

theorem pyStripL_decomp (l : List Char) :
    ∃ post, l.dropWhile isPySpace = pyStripL l ++ post := by
  unfold pyStripL
  obtain ⟨t, ht⟩ :=
    List.dropWhile_suffix (l := (l.dropWhile isPySpace).reverse) isPySpace
  refine ⟨t.reverse, ?_⟩
  have h2 := congrArg List.reverse ht
  rw [List.reverse_append, List.reverse_reverse] at h2
  exact h2.symm

theorem chain'_pyStripL {R : Char → Char → Prop} {l : List Char}
    (h : List.Chain' R l) : List.Chain' R (pyStripL l) := by
  have h1 : List.Chain' R (l.dropWhile isPySpace) :=
    List.Chain'.suffix h (List.dropWhile_suffix isPySpace)
  obtain ⟨post, hpost⟩ := pyStripL_decomp l
  rw [hpost] at h1
  exact List.Chain'.left_of_append h1

theorem nlOK_cons_elim {a : Char} {l : List Char} (h : nlOK (a :: l) = true) :
    nlOK l = true := by
  rw [nlOK] at h
  exact (Bool.and_eq_true_iff.mp h).2

theorem nlOK_suffix {s l : List Char} (h : nlOK l = true) (hs : s <:+ l) :
    nlOK s = true := by
  obtain ⟨t, ht⟩ := hs
  subst ht
  induction t with
  | nil => exact h
  | cons a t' ih => exact ih (nlOK_cons_elim h)

theorem nlOK_append_left : ∀ (s t : List Char),
    nlOK (s ++ t) = true → nlOK s = true := by
  intro s
  induction s with
  | nil => intro t _; rfl
  | cons a s' ih =>
    intro t h
    rw [List.cons_append, nlOK] at h
    rcases Bool.and_eq_true_iff.mp h with ⟨hw, hr⟩
    rw [nlOK]
    apply Bool.and_eq_true_iff.mpr
    refine ⟨?_, ih t hr⟩
    cases s' with
    | nil => simp
    | cons y s'' =>
      cases s'' with
      | nil => simp
      | cons z s''' => simpa using hw

theorem nlOK_pyStripL {l : List Char} (h : nlOK l = true) :
    nlOK (pyStripL l) = true := by
  have h1 : nlOK (l.dropWhile isPySpace) = true :=
    nlOK_suffix h (List.dropWhile_suffix isPySpace)
  obtain ⟨post, hpost⟩ := pyStripL_decomp l
  rw [hpost] at h1
  exact nlOK_append_left _ _ h1

theorem joinNL_head?_cases (m : List Char) (L : List (List Char)) {x : Char}
    (hx : (joinNL (m :: L)).head? = some x) :
    m.head? = some x ∨ x = '\n' := by
  cases L with
  | nil => exact Or.inl hx
  | cons m2 L' =>
    have : joinNL (m :: m2 :: L') = m ++ '\n' :: joinNL (m2 :: L') := rfl
    rw [this, List.head?_append] at hx
    cases hm : m.head? with
    | none => rw [hm] at hx; simp at hx; exact Or.inr hx.symm
    | some y =>
      rw [hm] at hx
      simp at hx
      exact Or.inl (congrArg some hx)

/-- Chains across `'\n'.join`: interior pairs come from the lines,
junction pairs from the hypotheses on line ends and on the
newline-newline pair. -/
theorem chain'_joinNL {R : Char → Char → Prop} (hnn : R '\n' '\n') :
    ∀ (L : List (List Char)),
    (∀ ln ∈ L, List.Chain' R ln) →
    (∀ ln ∈ L, ∀ c, ln.head? = some c → R '\n' c) →
    (∀ ln ∈ L, ∀ c, ln.getLast? = some c → R c '\n') →
    List.Chain' R (joinNL L) := by
  intro L
  induction L with
  | nil => intro _ _ _; simp [joinNL]
  | cons ln L' ih =>
    intro hch hhead hlast
    cases L' with
    | nil => exact hch ln (by simp)
    | cons m L'' =>
      have hrec : List.Chain' R (joinNL (m :: L'')) :=
        ih (fun x hx => hch x (by simp [hx]))
          (fun x hx => hhead x (by simp [hx]))
          (fun x hx => hlast x (by simp [hx]))
      have : joinNL (ln :: m :: L'') = ln ++ '\n' :: joinNL (m :: L'') := rfl
      rw [this]
      apply List.chain'_append.mpr
      refine ⟨hch ln (by simp), ?_, ?_⟩
      · apply List.chain'_cons'.mpr
        refine ⟨?_, hrec⟩
        intro y hy
        rcases joinNL_head?_cases m L'' hy with h1 | h1
        · exact hhead m (by simp) y h1
        · subst h1
          exact hnn
      · intro x hx y hy
        simp at hy
        subst hy
        exact hlast ln (by simp) x hx

/-- After a newline and a run of newlines, the next character is not
horizontal whitespace (lines are stripped on the left of the run's
end). -/
theorem hws_after_nl_run : ∀ (rest : List Char),
    List.Chain' RnlEdge ('\n' :: rest) →
    ∀ x, (rest.dropWhile (fun d => d == '\n')).head? = some x →
    isHWS x = false := by
  intro rest
  induction rest with
  | nil =>
    intro _ x hx
    simp at hx
  | cons d r2 ih =>
    intro hch x hx
    by_cases hd : d = '\n'
    · rw [List.dropWhile_cons, if_pos (by simp [hd])] at hx
      apply ih _ x hx
      have h2 : List.Chain' RnlEdge (d :: r2) := List.Chain'.tail hch
      rw [hd] at h2
      exact h2
    · rw [List.dropWhile_cons, if_neg (by simp [hd])] at hx
      simp at hx
      subst hx
      have hpair : RnlEdge '\n' d := (List.chain'_cons'.mp hch).1 d rfl
      rcases hpair with ⟨hp1, _⟩
      cases hb : isHWS d
      · rfl
      · exact absurd ⟨rfl, hb⟩ hp1

theorem collapseNLs_chain'_noAdj : ∀ (fuel : Nat) (l : List Char),
    List.Chain' RnoAdj l → List.Chain' RnoAdj (collapseNLs fuel l) := by
  intro fuel
  induction fuel with
  | zero => intro l h; exact h
  | succ f ih =>
    intro l h
    cases l with
    | nil => simp [collapseNLs]
    | cons c rest =>
      have hchr : List.Chain' RnoAdj rest := List.Chain'.tail h
      rw [collapseNLs]
      by_cases hcond : (c = '\n' && rest.head? == some '\n' &&
          rest.tail.head? == some '\n') = true
      · rw [if_pos hcond]
        have hdropc : List.Chain' RnoAdj (rest.dropWhile (fun d => d == '\n')) :=
          List.Chain'.suffix hchr (List.dropWhile_suffix _)
        apply List.chain'_cons'.mpr
        refine ⟨?_, ?_⟩
        · intro y _ hpair
          exact absurd hpair.1 (by decide)
        · apply List.chain'_cons'.mpr
          refine ⟨?_, ih _ hdropc⟩
          intro y _ hpair
          exact absurd hpair.1 (by decide)
      · rw [if_neg hcond]
        apply List.chain'_cons'.mpr
        refine ⟨?_, ih rest hchr⟩
        intro y hy
        rw [collapseNLs_head? f rest] at hy
        exact (List.chain'_cons'.mp h).1 y hy

theorem collapseNLs_chain'_nlEdge : ∀ (fuel : Nat) (l : List Char),
    List.Chain' RnlEdge l → List.Chain' RnlEdge (collapseNLs fuel l) := by
  intro fuel
  induction fuel with
  | zero => intro l h; exact h
  | succ f ih =>
    intro l h
    cases l with
    | nil => simp [collapseNLs]
    | cons c rest =>
      have hchr : List.Chain' RnlEdge rest := List.Chain'.tail h
      rw [collapseNLs]
      by_cases hcond : (c = '\n' && rest.head? == some '\n' &&
          rest.tail.head? == some '\n') = true
      · rw [if_pos hcond]
        simp only [Bool.and_eq_true, decide_eq_true_eq, beq_iff_eq] at hcond
        obtain ⟨⟨hc0, hc1⟩, _⟩ := hcond
        have hdropc : List.Chain' RnlEdge (rest.dropWhile (fun d => d == '\n')) :=
          List.Chain'.suffix hchr (List.dropWhile_suffix _)
        have hch0 : List.Chain' RnlEdge ('\n' :: rest) := by
          rw [← hc0]
          exact h
        apply List.chain'_cons'.mpr
        refine ⟨?_, ?_⟩
        · intro y hy
          simp at hy
          subst hy
          exact ⟨fun hp => by exact absurd hp.2 (by decide),
            fun hp => by exact absurd hp.1 (by decide)⟩
        · apply List.chain'_cons'.mpr
          refine ⟨?_, ih _ hdropc⟩
          intro y hy
          rw [collapseNLs_head? f _] at hy
          cases hdw : (rest.dropWhile (fun d => d == '\n')).head? with
          | none => rw [hdw] at hy; simp at hy
          | some z =>
            rw [hdw] at hy
            simp at hy
            subst hy
            have hz := hws_after_nl_run rest hch0 z hdw
            exact ⟨fun hp => by rw [hz] at hp; simp at hp,
              fun hp => by exact absurd hp.1 (by decide)⟩
      · rw [if_neg hcond]
        apply List.chain'_cons'.mpr
        refine ⟨?_, ih rest hchr⟩
        intro y hy
        rw [collapseNLs_head? f rest] at hy
        exact (List.chain'_cons'.mp h).1 y hy

theorem collapseNLs_nlOK : ∀ (fuel : Nat) (l : List Char), l.length ≤ fuel →
    nlOK (collapseNLs fuel l) = true := by
  intro fuel
  induction fuel using Nat.strong_induction_on with
  | _ fuel ih =>
    intro l hlen
    cases fuel with
    | zero =>
      have hl : l = [] := List.length_eq_zero.mp (by omega)
      subst hl
      rfl
    | succ f =>
      cases l with
      | nil => rfl
      | cons c rest =>
        simp only [List.length_cons] at hlen
        rw [collapseNLs]
        by_cases hcond : (c = '\n' && rest.head? == some '\n' &&
            rest.tail.head? == some '\n') = true
        · rw [if_pos hcond]
          have hmlen : (rest.dropWhile (fun d => d == '\n')).length ≤ f := by
            have := (List.dropWhile_suffix (l := rest)
              (fun d => d == '\n')).length_le
            omega
          have hY : nlOK (collapseNLs f (rest.dropWhile (fun d => d == '\n'))) =
              true := ih f (by omega) _ hmlen
          have hYhead : ∀ z,
              (collapseNLs f (rest.dropWhile (fun d => d == '\n'))).head? =
                some z → (z == '\n') = false := by
            intro z hz
            rw [collapseNLs_head? f _] at hz
            exact head?_dropWhile_false (p := fun d => d == '\n') hz
          rw [nlOK]
          apply Bool.and_eq_true_iff.mpr
          constructor
          · cases hY2 : (collapseNLs f
                (rest.dropWhile (fun d => d == '\n'))).head? with
            | none => simp [hY2]
            | some z =>
              have hzz := hYhead z hY2
              simp [hY2]
              intro he
              rw [he] at hzz
              simp at hzz
          · rw [nlOK]
            apply Bool.and_eq_true_iff.mpr
            refine ⟨?_, hY⟩
            cases hY2 : (collapseNLs f
                (rest.dropWhile (fun d => d == '\n'))).head? with
            | none => simp [hY2]
            | some z =>
              have hzz := hYhead z hY2
              simp [hY2]
              refine Or.inl ?_
              intro he
              rw [he] at hzz
              simp at hzz
        · rw [if_neg hcond]
          have hrlen : rest.length ≤ f := by omega
          have hZ : nlOK (collapseNLs f rest) = true := ih f (by omega) rest hrlen
          have hwin : (c = '\n' &&
              (collapseNLs f rest).head? == some '\n' &&
              (collapseNLs f rest).tail.head? == some '\n') = false := by
            by_cases hc : c = '\n'
            · by_cases hrh : rest.head? = some '\n'
              · have h3 : rest.tail.head? ≠ some '\n' := by
                  intro h3
                  exact hcond (by simp [hc, hrh, h3])
                cases hr : rest with
                | nil =>
                  rw [hr] at hrh
                  simp at hrh
                | cons d r2 =>
                  have hd : d = '\n' := by
                    rw [hr] at hrh
                    simpa using hrh
                  have hr2 : r2.head? ≠ some '\n' := by
                    rw [hr] at h3
                    simpa using h3
                  cases f with
                  | zero =>
                    rw [hr] at hrlen
                    simp at hrlen
                  | succ f2 =>
                    rw [collapseNLs,
                      if_neg (by
                        intro hcc
                        simp only [Bool.and_eq_true, decide_eq_true_eq,
                          beq_iff_eq] at hcc
                        exact hr2 hcc.1.2)]
                    simp only [List.tail_cons]
                    rw [collapseNLs_head? f2 r2]
                    simp [hr2]
              · rw [collapseNLs_head? f rest]
                simp [hrh]
            · simp [hc]
          rw [nlOK, hwin, hZ]
          rfl

theorem chain'_RnlEdge_of_no_nl : ∀ (ln : List Char), '\n' ∉ ln →
    List.Chain' RnlEdge ln := by
  intro ln
  induction ln with
  | nil => intro _; simp
  | cons c rest ih =>
    intro h
    apply List.chain'_cons'.mpr
    refine ⟨?_, ih (fun hm => h (by simp [hm]))⟩
    intro y hy
    have hyr : y ∈ rest := mem_of_head?_eq hy
    refine ⟨?_, ?_⟩
    · rintro ⟨hc, _⟩
      exact h (by simp [hc])
    · rintro ⟨_, hyn⟩
      exact h (by simp [hyn ▸ hyr])

/-- The output of `normalize_whitespace` is canonical. -/
theorem normalizeWhitespace_canonical (s : String) :
    wsCanonical (normalizeWhitespace s).data := by
  set a := detab (fixNewlines s.data) with ha
  set b := collapseHWS a.length a with hbdef
  set L := (splitNL b).map pyStripL with hL
  set u := joinNL L with hu
  set z := collapseNLs u.length u with hz
  obtain ⟨hb1, hb2⟩ := collapseHWS_canon a.length a (le_refl _)
  rw [← hbdef] at hb1 hb2
  have hline_no_nl : ∀ ln ∈ L, '\n' ∉ ln := by
    intro ln hln
    rw [hL] at hln
    obtain ⟨ln0, hln0, hst⟩ := List.mem_map.mp hln
    subst hst
    intro hm
    exact splitNL_no_nl b ln0 hln0 (mem_pyStripL _ _ hm)
  have hline_mem : ∀ ln ∈ L, ∀ c ∈ ln, c ∈ b := by
    intro ln hln c hc
    rw [hL] at hln
    obtain ⟨ln0, hln0, hst⟩ := List.mem_map.mp hln
    subst hst
    exact mem_of_mem_splitNL b ln0 hln0 c (mem_pyStripL _ _ hc)
  have hline_noAdj : ∀ ln ∈ L, List.Chain' RnoAdj ln := by
    intro ln hln
    rw [hL] at hln
    obtain ⟨ln0, hln0, hst⟩ := List.mem_map.mp hln
    subst hst
    exact chain'_pyStripL (chain'_splitNL_line b hb2 ln0 hln0)
  have hline_head : ∀ ln ∈ L, ∀ c, ln.head? = some c → isPySpace c = false := by
    intro ln hln c hc
    rw [hL] at hln
    obtain ⟨ln0, _, hst⟩ := List.mem_map.mp hln
    subst hst
    exact pyStripL_head hc
  have hline_last : ∀ ln ∈ L, ∀ c, ln.getLast? = some c → isPySpace c = false := by
    intro ln hln c hc
    rw [hL] at hln
    obtain ⟨ln0, _, hst⟩ := List.mem_map.mp hln
    subst hst
    exact pyStripL_last hc
  have hu1 : ∀ c ∈ u, isHWS c = true → c = ' ' := by
    intro c hc hhws
    rcases mem_joinNL L c hc with h1 | h1
    · subst h1
      exact absurd hhws (by decide)
    · obtain ⟨ln, hln, hcl⟩ := h1
      exact hb1 c (hline_mem ln hln c hcl) hhws
  have hu2 : List.Chain' RnoAdj u := by
    apply chain'_joinNL (fun hp => absurd hp.1 (by decide)) L hline_noAdj
    · intro ln _ c _
      intro hp
      exact absurd hp.1 (by decide)
    · intro ln _ c _
      intro hp
      exact absurd hp.2 (by decide)
  have hu3 : List.Chain' RnlEdge u := by
    apply chain'_joinNL (by exact ⟨fun hp => absurd hp.2 (by decide),
      fun hp => absurd hp.1 (by decide)⟩) L
    · intro ln hln
      exact chain'_RnlEdge_of_no_nl ln (hline_no_nl ln hln)
    · intro ln hln c hc
      refine ⟨?_, fun hp => absurd hp.1 (by decide)⟩
      rintro ⟨_, hhws⟩
      have := pySpace_of_isHWS hhws
      rw [hline_head ln hln c hc] at this
      simp at this
    · intro ln hln c hc
      refine ⟨fun hp => absurd hp.1 ?_, ?_⟩
      · intro he
        have := hline_no_nl ln hln
        exact this (he ▸ mem_of_getLast?_eq hc)
      · rintro ⟨hhws, _⟩
        have := pySpace_of_isHWS hhws
        rw [hline_last ln hln c hc] at this
        simp at this
  have hz1 : ∀ c ∈ z, isHWS c = true → c = ' ' := by
    intro c hc hhws
    rcases mem_collapseNLs u.length u c hc with h1 | h1
    · subst h1
      exact absurd hhws (by decide)
    · exact hu1 c h1 hhws
  have hz2 : List.Chain' RnoAdj z := collapseNLs_chain'_noAdj u.length u hu2
  have hz3 : List.Chain' RnlEdge z := collapseNLs_chain'_nlEdge u.length u hu3
  have hz4 : nlOK z = true := collapseNLs_nlOK u.length u (le_refl _)
  have hout : (normalizeWhitespace s).data = pyStripL z := rfl
  rw [hout]
  refine ⟨?_, chain'_pyStripL hz2, chain'_pyStripL hz3, nlOK_pyStripL hz4,
    ?_, ?_⟩
  · intro c hc hhws
    exact hz1 c (mem_pyStripL z c hc) hhws
  · intro c hc
    exact pyStripL_head hc
  · intro c hc
    exact pyStripL_last hc

/-- C8: `normalize_whitespace` is idempotent. -/
theorem normalizeWhitespace_idempotent (s : String) :
    normalizeWhitespace (normalizeWhitespace s) = normalizeWhitespace s := by
  have hc := normalizeWhitespace_canonical s
  have hid := normalizeWhitespace_canonical_id (normalizeWhitespace s).data hc
  have heta : (⟨(normalizeWhitespace s).data⟩ : String) = normalizeWhitespace s := by
    cases hs : normalizeWhitespace s
    rfl
  rw [heta] at hid
  exact hid

end SpeechText
